import Mathlib

/-!
# Verification of the ndx full-text search engine core

A shallow embedding, in Lean 4, of the core data structures and algorithms of
the `ndx` in-memory full-text search engine (trie-based inverted index,
document registry with per-field length statistics, BM25 ranking with prefix
expansion, logical deletion and vacuum), together with proofs of the
behavioural properties stated in the engine's design document.

Modelling conventions, used consistently below:

* JavaScript strings are modelled as their sequences of UTF-16 code units,
  `List Nat`.  `s.charCodeAt i` is list indexing, `s.length` is list length,
  string equality is list equality, `s + String.fromCharCode c` is
  `s ++ [c]`.
* JavaScript numbers are modelled as exact rationals `ℚ`.  `Math.log` is an
  uninterpreted parameter `jsLog : ℚ → ℚ`; every ranking theorem holds for
  every choice of `jsLog`.  The one place where the distinction between exact
  rationals and IEEE floats is itself the subject of a claim (division by a
  zero live-document count in `remove`) gets a dedicated IEEE-faithful
  embedding (`JsVal`, `jsDiv`) further below.
* A JavaScript `Map` is an insertion-ordered association list; `Map.set` on a
  present key updates the entry in place, on an absent key appends;
  `Map.forEach` iterates in that order.  A JavaScript `Set` is a list used
  only through membership.
* Singly linked intrusive lists (`firstChild`/`next`, `firstPosting`/`next`)
  are Lean lists; prepending to the head of the linked list is `::`.
* The mutable `removed` flag on a `DocumentDetails` object shared by all
  postings of one document is modelled by value propagation: `remove` updates
  the flag in the registry entry and in every posting of that document in the
  trie, which is observationally the single shared-pointer write the source
  performs.
* A nullable array/list field (`null` vs `[]`) is collapsed to the empty list
  whenever the source only ever observes it through emptiness tests; each
  collapse is noted at the definition it concerns.
-/

namespace Ndx

/-- Document details (`src/document.ts`): the document id, the shared
`removed` flag, and the number of filtered terms each field contributed
(`fieldLengths`). -/
structure DocumentDetails (I : Type) where
  docId : I
  removed : Bool
  fieldLengths : List Nat
deriving DecidableEq, Repr

/-- A posting (`DocumentPointer` in `src/inverted_index.ts`): a pointer to the
owning document's details plus the per-field term frequencies.  The intrusive
`next` pointer of the linked-list variant is represented by the posting's
position in a Lean list. -/
structure DocumentPointer (I : Type) where
  details : DocumentDetails I
  termFrequency : List Nat
deriving DecidableEq, Repr

/-- Trie node of the linked-list inverted index (`InvertedIndexNode`):
a char code, the linked list of children (`firstChild`/`next`) and the linked
list of postings (`firstPosting`/`next`).  `null` linked lists are the empty
list. -/
inductive TrieL (I : Type) : Type where
  | node (charCode : Nat) (postings : List (DocumentPointer I)) (children : List (TrieL I))
deriving Repr

namespace TrieL

variable {I : Type}

/-- The `charCode` field of a trie node. -/
def charCode : TrieL I → Nat
  | .node k _ _ => k

/-- The `firstPosting` linked list of a trie node. -/
def postings : TrieL I → List (DocumentPointer I)
  | .node _ ps _ => ps

/-- The `firstChild` linked list of a trie node. -/
def children : TrieL I → List (TrieL I)
  | .node _ _ cs => cs

@[simp] theorem charCode_node (k : Nat) (ps : List (DocumentPointer I)) (cs : List (TrieL I)) :
    charCode (.node k ps cs) = k := rfl

@[simp] theorem postings_node (k : Nat) (ps : List (DocumentPointer I)) (cs : List (TrieL I)) :
    postings (.node k ps cs) = ps := rfl

@[simp] theorem children_node (k : Nat) (ps : List (DocumentPointer I)) (cs : List (TrieL I)) :
    children (.node k ps cs) = cs := rfl

/-- Size measure used for recursion/induction over the nested inductive. -/
theorem sizeOf_mem_children {t : TrieL I} {k : Nat} {ps : List (DocumentPointer I)}
    {cs : List (TrieL I)} (h : t ∈ cs) : sizeOf t < sizeOf (TrieL.node k ps cs) := by
  have h1 : sizeOf t < sizeOf cs := List.sizeOf_lt_of_mem h
  cases cs with
  | nil => cases h
  | cons a l => simp only [TrieL.node.sizeOf_spec]; omega

/-- A structural induction principle for `TrieL` that hands the inductive
hypothesis to every member of the child list. -/
theorem inductionOn {P : TrieL I → Prop}
    (h : ∀ k ps cs, (∀ t ∈ cs, P t) → P (TrieL.node k ps cs)) : ∀ t, P t
  | .node k ps cs => h k ps cs (fun t ht => inductionOn h t)
termination_by t => sizeOf t
decreasing_by exact sizeOf_mem_children ht

end TrieL

variable {I : Type}

/-- `findChild(node, charCode)` walks the `firstChild`/`next` linked list and
returns the first child with a matching char code. -/
def findChild (cs : List (TrieL I)) (c : Nat) : Option (TrieL I) :=
  cs.find? (fun ch => ch.charCode = c)

/-- `InvertedIndex.get(term)`: descends from `node` following one child edge
per code unit of `term`; `none` models the `null` result. -/
def getNode : TrieL I → List Nat → Option (TrieL I)
  | nd, [] => some nd
  | nd, c :: rest =>
    match findChild nd.children c with
    | none => none
    | some ch => getNode ch rest

/-- The recursive part of `expandTerm` (`_expandTerm`): emit the current term
when the node's posting list is non-`null`/non-empty, then recurse into the
children in linked-list order, extending the term by each child's char
code. -/
def expandTermGo : TrieL I → List Nat → List (List Nat)
  | .node _ ps cs, term =>
    (if ps.isEmpty then [] else [term]) ++
      cs.attach.flatMap (fun c => expandTermGo c.1 (term ++ [c.1.charCode]))
termination_by t => sizeOf t
decreasing_by exact TrieL.sizeOf_mem_children c.2

/-- `InvertedIndex.expandTerm(term)`: find the node of `term` and collect all
stored extensions below it (including `term` itself when its node holds
postings). -/
def expandTermL (t : TrieL I) (term : List Nat) : List (List Nat) :=
  match getNode t term with
  | none => []
  | some nd => expandTermGo nd term

/-- `_vacuum(node)` of the linked-list index: unlink every posting whose
details carry the `removed` flag (preserving the order of the survivors) and
recurse into every child.  This variant compacts posting lists only — it does
not prune empty nodes. -/
def vacuumL : TrieL I → TrieL I
  | .node k ps cs =>
    .node k (ps.filter (fun p => !p.details.removed)) (cs.attach.map (fun c => vacuumL c.1))
termination_by t => sizeOf t
decreasing_by exact TrieL.sizeOf_mem_children c.2

/-- Value-propagation model of the shared-pointer write `details.removed =
true` performed by `DocumentIndex.remove`: every posting of document `id`
anywhere in the trie sees the updated flag. -/
def markRemovedInTrie [DecidableEq I] (t : TrieL I) (id : I) : TrieL I :=
  match t with
  | .node k ps cs =>
    .node k
      (ps.map (fun p =>
        if p.details.docId = id then { p with details := { p.details with removed := true } } else p))
      (cs.attach.map (fun c => markRemovedInTrie c.1 id))
termination_by sizeOf t
decreasing_by exact TrieL.sizeOf_mem_children c.2

/-- `createNodes(parent, term, start)`: build the chain of fresh nodes for the
remaining code units; the posting is attached to the terminal node after the
walk (`node.firstPosting` starts as the single new pointer). -/
def buildChain (c : Nat) (rest : List Nat) (p : DocumentPointer I) : TrieL I :=
  match rest with
  | [] => .node c [p] []
  | c2 :: rest2 => .node c [] [buildChain c2 rest2 p]

/-- `InvertedIndex.add(term, …)`: walk the trie; where a child for the next
code unit exists, descend into it (the first match in the linked list); where
it does not, prepend a fresh chain of nodes to the parent's child list.  The
new posting is prepended to the terminal node's posting list. -/
def insertTerm : TrieL I → List Nat → DocumentPointer I → TrieL I
  | .node k ps cs, [], p => .node k (p :: ps) cs
  | .node k ps cs, c :: rest, p =>
    match cs.findIdx? (fun ch => ch.charCode = c) with
    | none => .node k ps (buildChain c rest p :: cs)
    | some j => .node k ps (cs.set j (insertTerm (cs.getD j (.node 0 [] [])) rest p))

/-- Per-field details (`FieldDetails` in `src/document_index.ts`): name,
accessor, boost factor and the running sum/average of field lengths.  The
accessor returns `none` for an absent field (`undefined` in the source). -/
structure FieldDetails (D : Type) where
  name : List Nat
  getter : D → Option (List Nat)
  boost : ℚ
  sumLength : ℚ
  avgLength : ℚ

/-- Fallback used to model a JavaScript indexed read past the end of the
`_fields` array; reachable states never exercise it. -/
def emptyField (D : Type) : FieldDetails D :=
  { name := [], getter := fun _ => none, boost := 1, sumLength := 0, avgLength := 0 }

/-- The state of a `DocumentIndex` (`DocumentIndexState`): the live document
registry `_documents` (a `Map`, i.e. an insertion-ordered association list),
the inverted-index root `_index.root`, the field list `_fields`, the injected
`_tokenizer` and `_filter`, and the BM25 constants. -/
structure DocumentIndexState (I D : Type) where
  documents : List (I × DocumentDetails I)
  root : TrieL I
  fields : List (FieldDetails D)
  tokenizer : List Nat → List (List Nat)
  filter : List Nat → List Nat
  bm25k1 : ℚ
  bm25b : ℚ

variable {D : Type}

/-- The score accumulator `scores : Map<I, number>` of `search`. -/
abbrev Scores (I : Type) := List (I × ℚ)

/-- `scores.get(docId)`. -/
def getScore [DecidableEq I] (sc : Scores I) (k : I) : Option ℚ :=
  (sc.find? (fun e => e.1 = k)).map (·.2)

/-- `scores.set(docId, v)`: update in place when the key is present, append
when it is new — JavaScript `Map` insertion-order semantics. -/
def setScore [DecidableEq I] (sc : Scores I) (k : I) (v : ℚ) : Scores I :=
  match sc with
  | [] => [(k, v)]
  | e :: rest => if e.1 = k then (k, v) :: rest else e :: setScore rest k v

/-- `documents.add(docId)` on the per-query-term visited `Set`. -/
def insertVisited [DecidableEq I] (vis : List I) (k : I) : List I :=
  if k ∈ vis then vis else k :: vis

section Search

variable (jsLog : ℚ → ℚ)

/-- The inner field loop of `search`: for `x` ranging over the posting
document's `fieldLengths` indices, accumulate the BM25 per-field
contribution `tf · idf · boost · expansionBoost` whenever the raw term
frequency in field `x` is positive. -/
def postingScore (flds : List (FieldDetails D)) (k1 b idf eb : ℚ) (p : DocumentPointer I) : ℚ :=
  (List.range p.details.fieldLengths.length).foldl
    (fun score x =>
      let tfRaw : Nat := p.termFrequency.getD x 0
      if 0 < tfRaw then
        let fieldLength : ℚ := (p.details.fieldLengths.getD x 0 : Nat)
        let fd := flds.getD x (emptyField D)
        let tf : ℚ := ((k1 + 1) * tfRaw) / (k1 * ((1 - b) + b * (fieldLength / fd.avgLength)) + tfRaw)
        score + tf * idf * fd.boost * eb
      else score)
    0

/-- Scoring of one posting inside the expansion loop of `search`: a posting
whose document is removed is skipped (the source also unlinks it in place,
which does not change the produced scores); a live posting with positive
score updates the accumulator — additively when the document has not been
seen for the current query term, by `Math.max` when it has — and joins the
visited set. -/
def processPosting [DecidableEq I] (flds : List (FieldDetails D)) (k1 b idf eb : ℚ)
    (acc : Scores I × List I) (p : DocumentPointer I) : Scores I × List I :=
  if p.details.removed then acc
  else
    let s := postingScore flds k1 b idf eb p
    if 0 < s then
      let docId := p.details.docId
      let sc' :=
        match getScore acc.1 docId with
        | some prev =>
          if docId ∈ acc.2 then setScore acc.1 docId (max prev s)
          else setScore acc.1 docId (prev + s)
        | none => setScore acc.1 docId s
      (sc', insertVisited acc.2 docId)
    else acc

/-- Processing of one expanded term `eTerm` of the query term `term` inside
`search`: compute the expansion boost, look the node up, count the live
postings (`documentFrequency`), and when it is positive compute the BM25
`idf` and fold the posting list through `processPosting`. -/
def processExpansion [DecidableEq I] (st : DocumentIndexState I D) (term : List Nat)
    (acc : Scores I × List I) (eTerm : List Nat) : Scores I × List I :=
  let eb : ℚ :=
    if eTerm = term then 1
    else jsLog (1 + 1 / (1 + ((eTerm.length : ℚ) - (term.length : ℚ))))
  match getNode st.root eTerm with
  | none => acc
  | some nd =>
    if nd.postings.isEmpty then acc
    else
      let df : Nat := (nd.postings.filter (fun p => !p.details.removed)).length
      if 0 < df then
        let idf : ℚ :=
          jsLog (1 + ((st.documents.length : ℚ) - (df : ℚ) + 1 / 2) / ((df : ℚ) + 1 / 2))
        nd.postings.foldl (processPosting st.fields st.bm25k1 st.bm25b idf eb) acc
      else acc

/-- Processing of a single (non-empty) filtered query term inside `search`:
expand it over the trie and fold the expansions through `processExpansion`,
starting from a fresh per-term visited set. -/
def processQueryTerm [DecidableEq I] (st : DocumentIndexState I D) (sc : Scores I)
    (term : List Nat) : Scores I :=
  ((expandTermL st.root term).foldl (processExpansion jsLog st term) (sc, [])).1

/-- The score map produced by `search(query)` before materialisation:
tokenize the query, filter each token, skip empty terms, and process the rest
in order. -/
def searchScores [DecidableEq I] (st : DocumentIndexState I D) (q : List Nat) : Scores I :=
  (st.tokenizer q).foldl
    (fun sc tok =>
      let term := st.filter tok
      if term.isEmpty then sc else processQueryTerm jsLog st sc term)
    []

/-- Descending insertion by score; ties keep the earlier element first, so the
overall sort is stable, matching `Array.prototype.sort` with the comparator
`(a, b) => b.score - a.score`. -/
def insertByScoreDesc (x : I × ℚ) : List (I × ℚ) → List (I × ℚ)
  | [] => [x]
  | y :: ys => if y.2 ≤ x.2 then x :: y :: ys else y :: insertByScoreDesc x ys

/-- Stable sort of the materialised results by descending score. -/
def sortByScoreDesc : List (I × ℚ) → List (I × ℚ)
  | [] => []
  | x :: xs => insertByScoreDesc x (sortByScoreDesc xs)

/-- `DocumentIndex.search(query)`: the score map entries in `Map` iteration
order (insertion order), sorted by descending score. -/
def search [DecidableEq I] (st : DocumentIndexState I D) (q : List Nat) : List (I × ℚ) :=
  sortByScoreDesc (searchScores jsLog st q)

end Search

/-- `DocumentIndex.vacuum()`: clean the removed postings out of the trie. -/
def vacuumState (st : DocumentIndexState I D) : DocumentIndexState I D :=
  { st with root := vacuumL st.root }

/-- The per-term per-field count map `termCounts : Map<string, number[]>`
built during `add`; entries appear in first-insertion order. -/
abbrev TermCounts := List (List Nat × List Nat)

/-- `counts[i] += 1` after `termCounts.get/set`: fetch the count vector of
`term` (creating a zero vector of length `fieldsNum` on a miss, appended in
`Map` insertion order) and increment position `i`. -/
def bumpTermCount (tc : TermCounts) (term : List Nat) (fieldsNum i : Nat) : TermCounts :=
  match tc with
  | [] => [(term, (List.replicate fieldsNum 0).set i ((List.replicate fieldsNum (0 : Nat)).getD i 0 + 1))]
  | e :: rest =>
    if e.1 = term then (e.1, e.2.set i (e.2.getD i 0 + 1)) :: rest
    else e :: bumpTermCount rest term fieldsNum i

/-- The token loop of `add` for one field: filter each token, discard empty
terms, count the survivors (`filteredTermsCount`) and accumulate the
per-term per-field counts. -/
def countFieldTokens (filter : List Nat → List Nat) (fieldsNum i : Nat)
    (tokens : List (List Nat)) (tc : TermCounts) : Nat × TermCounts :=
  tokens.foldl
    (fun acc tok =>
      let term := filter tok
      if term.isEmpty then acc
      else (acc.1 + 1, bumpTermCount acc.2 term fieldsNum i))
    (0, tc)

/-- The field loop of `add`: for field `i`, an absent accessor result records
length `0` and leaves the statistics alone; a present one tokenizes, filters
and counts, then updates `sumLength` and recomputes
`avgLength = sumLength / (docsSize + 1)` (where `docsSize` is the registry
size before the new document is registered — registration happens after this
loop).  Returns the updated field list, the `fieldLengths` vector and the
accumulated term counts. -/
def indexFields (tokenizer : List Nat → List (List Nat)) (filter : List Nat → List Nat)
    (doc : D) (docsSize fieldsNum : Nat) :
    List (FieldDetails D) → Nat → TermCounts → List (FieldDetails D) × List Nat × TermCounts
  | [], _, tc => ([], [], tc)
  | fd :: rest, i, tc =>
    match fd.getter doc with
    | none =>
      let (fs, ls, tc') := indexFields tokenizer filter doc docsSize fieldsNum rest (i + 1) tc
      (fd :: fs, 0 :: ls, tc')
    | some text =>
      let tokens := tokenizer text
      let (c, tc1) := countFieldTokens filter fieldsNum i tokens tc
      let fd' := { fd with
        sumLength := fd.sumLength + c
        avgLength := (fd.sumLength + c) / ((docsSize : ℚ) + 1) }
      let (fs, ls, tc') := indexFields tokenizer filter doc docsSize fieldsNum rest (i + 1) tc1
      (fd' :: fs, c :: ls, tc')

/-- `documents.set(docId, details)`: `Map` set semantics on the registry. -/
def setDocument [DecidableEq I] (docs : List (I × DocumentDetails I)) (id : I)
    (d : DocumentDetails I) : List (I × DocumentDetails I) :=
  match docs with
  | [] => [(id, d)]
  | e :: rest => if e.1 = id then (id, d) :: rest else e :: setDocument rest id d

/-- `documents.get(docId)` on the registry. -/
def lookupDocument [DecidableEq I] (docs : List (I × DocumentDetails I)) (id : I) :
    Option (DocumentDetails I) :=
  (docs.find? (fun e => e.1 = id)).map (·.2)

/-- `documents.delete(docId)` on the registry. -/
def eraseDocument [DecidableEq I] (docs : List (I × DocumentDetails I)) (id : I) :
    List (I × DocumentDetails I) :=
  match docs with
  | [] => []
  | e :: rest => if e.1 = id then rest else e :: eraseDocument rest id

/-- `DocumentIndex.add(documentId, document)`: run the field loop, construct
the details record `{docId, removed: false, fieldLengths}`, register it, and
insert every accumulated `(term, counts)` pair into the trie (in `Map`
iteration order), prepending a posting that points at the shared details. -/
def addDocument [DecidableEq I] (st : DocumentIndexState I D) (id : I) (doc : D) :
    DocumentIndexState I D :=
  let (fields', lengths, tc) :=
    indexFields st.tokenizer st.filter doc st.documents.length st.fields.length st.fields 0 []
  let details : DocumentDetails I := { docId := id, removed := false, fieldLengths := lengths }
  { st with
    fields := fields'
    documents := setDocument st.documents id details
    root := tc.foldl
      (fun r e => insertTerm r e.1 { details := details, termFrequency := e.2 }) st.root }

/-- List map with the element index, mirroring the indexed `for` loops over
`_fields`. -/
def mapWithIndex (f : Nat → α → β) : List α → Nat → List β
  | [], _ => []
  | a :: rest, i => f i a :: mapWithIndex f rest (i + 1)

/-- `DocumentIndex.remove(documentId)`: when the id is live, set the shared
`removed` flag (propagated to every posting of the document), delete the
registry entry, and for every field with a positive recorded length subtract
it from `sumLength` and recompute `avgLength = sumLength / documents.size`
over the shrunken registry.  An unknown id is a no-op. -/
def removeDocument [DecidableEq I] (st : DocumentIndexState I D) (id : I) :
    DocumentIndexState I D :=
  match lookupDocument st.documents id with
  | none => st
  | some details =>
    let documents' := eraseDocument st.documents id
    let fields' := mapWithIndex
      (fun i fd =>
        let fieldLength := details.fieldLengths.getD i 0
        if 0 < fieldLength then
          { fd with
            sumLength := fd.sumLength - fieldLength
            avgLength := (fd.sumLength - (fieldLength : ℚ)) / (documents'.length : ℚ) }
        else fd)
      st.fields 0
    { st with
      documents := documents'
      fields := fields'
      root := markRemovedInTrie st.root id }

/-! ## Specification-side BM25 formulas (§4.5 of the design document)

These definitions are written from the specification's wording, independently
of the embedding of `search` above, and are compared with it in the claim
about the scoring rules. -/

section SpecFormulas

variable (jsLog : ℚ → ℚ)

/-- Spec §4.5: `boost_e = 1` if `e == q`, else
`log(1 + 1 / (1 + len(e) − len(q)))`. -/
def specExpansionBoost (e q : List Nat) : ℚ :=
  if e = q then 1 else jsLog (1 + 1 / (1 + ((e.length : ℚ) - (q.length : ℚ))))

/-- Spec §4.5: document frequency `df_e` — the number of live (non-removed)
postings at the trie node for `e`. -/
def specLiveDf (st : DocumentIndexState I D) (e : List Nat) : Nat :=
  match getNode st.root e with
  | none => 0
  | some nd => (nd.postings.filter (fun p => !p.details.removed)).length

/-- Spec §4.5: `idf_e = log(1 + (N − df_e + 0.5) / (df_e + 0.5))`. -/
def specIdf (N df : ℚ) : ℚ :=
  jsLog (1 + (N - df + 1 / 2) / (df + 1 / 2))

/-- Spec §4.5: `tf = ((k1 + 1) · tf_raw) / (k1 · ((1 − b) + b · (L / Lavg)) +
tf_raw)`. -/
def specTfNorm (k1 b tfRaw L Lavg : ℚ) : ℚ :=
  ((k1 + 1) * tfRaw) / (k1 * ((1 - b) + b * (L / Lavg)) + tfRaw)

/-- Spec §4.5: the posting contribution — the sum over all fields `i` with
`tf_raw > 0` of `tf · idf_e · fieldBoost[i] · boost_e`, where `N` is the
current live document count and `L`, `Lavg` are the document's field length
and the field's running average length. -/
def specPostingScore (st : DocumentIndexState I D) (e q : List Nat)
    (p : DocumentPointer I) : ℚ :=
  ∑ i ∈ Finset.range st.fields.length,
    if 0 < p.termFrequency.getD i 0 then
      specTfNorm st.bm25k1 st.bm25b (p.termFrequency.getD i 0)
          (p.details.fieldLengths.getD i 0) ((st.fields.getD i (emptyField D)).avgLength)
        * specIdf jsLog (st.documents.length : ℚ) (specLiveDf st e : ℚ)
        * (st.fields.getD i (emptyField D)).boost
        * specExpansionBoost jsLog e q
    else 0

end SpecFormulas

/-- Folding an accumulate-if step over `List.range n` is the corresponding
`Finset.range` sum. -/
theorem foldl_add_ite_eq_sum (n : Nat) (a : ℚ) (P : Nat → Prop) [DecidablePred P]
    (f : Nat → ℚ) :
    (List.range n).foldl (fun acc x => if P x then acc + f x else acc) a
      = a + ∑ i ∈ Finset.range n, if P i then f i else 0 := by
  induction n generalizing a with
  | zero => simp
  | succ n ih =>
    rw [List.range_succ, List.foldl_append, Finset.sum_range_succ, ih]
    by_cases h : P n <;> simp [h] <;> ring

/-- C3. For every expansion `e` of a query term `q`, the score `search`
computes for a posting — with the `idf` it computes from the live posting
count at `e`'s node and the expansion boost it computes from `e` and `q` —
equals the specification's BM25 posting contribution: the sum over all fields
`i` with raw term frequency `tf_raw > 0` of
`tf · idf_e · fieldBoost[i] · boost_e`, with `tf`, `idf_e` and `boost_e` given
by the spec's formulas over the live document count, the live document
frequency at `e`, the posting's field length and the field's running average
length. -/
theorem search_posting_score_matches_spec [DecidableEq I] (jsLog : ℚ → ℚ)
    (st : DocumentIndexState I D) (q e : List Nat) (nd : TrieL I) (p : DocumentPointer I)
    (hnd : getNode st.root e = some nd)
    (hl : p.details.fieldLengths.length = st.fields.length) :
    postingScore st.fields st.bm25k1 st.bm25b
        (jsLog (1 + ((st.documents.length : ℚ)
            - ((nd.postings.filter (fun p => !p.details.removed)).length : ℚ) + 1 / 2)
          / (((nd.postings.filter (fun p => !p.details.removed)).length : ℚ) + 1 / 2)))
        (if e = q then 1 else jsLog (1 + 1 / (1 + ((e.length : ℚ) - (q.length : ℚ))))) p
      = specPostingScore jsLog st e q p := by
  have hdf : specLiveDf st e = (nd.postings.filter (fun p => !p.details.removed)).length := by
    simp [specLiveDf, hnd]
  unfold postingScore specPostingScore
  rw [hl, foldl_add_ite_eq_sum st.fields.length 0
    (fun x => 0 < p.termFrequency.getD x 0)
    (fun x =>
      ((st.bm25k1 + 1) * (p.termFrequency.getD x 0 : ℚ))
          / (st.bm25k1 * ((1 - st.bm25b) + st.bm25b * (((p.details.fieldLengths.getD x 0 : Nat) : ℚ)
              / (st.fields.getD x (emptyField D)).avgLength)) + (p.termFrequency.getD x 0 : ℚ))
        * jsLog (1 + ((st.documents.length : ℚ)
            - ((nd.postings.filter (fun p => !p.details.removed)).length : ℚ) + 1 / 2)
          / (((nd.postings.filter (fun p => !p.details.removed)).length : ℚ) + 1 / 2))
        * (st.fields.getD x (emptyField D)).boost
        * (if e = q then 1 else jsLog (1 + 1 / (1 + ((e.length : ℚ) - (q.length : ℚ))))))]
  rw [zero_add]
  refine Finset.sum_congr rfl (fun i _ => ?_)
  by_cases h : 0 < p.termFrequency.getD i 0 <;>
    simp [h, specTfNorm, specIdf, specExpansionBoost, hdf]

/-! ## Concrete fixtures used by the witness theorems -/

/-- A concrete document: one field of length 2. -/
def wDoc : DocumentDetails Nat := { docId := 0, removed := false, fieldLengths := [2] }

/-- A posting of `wDoc` with one occurrence in field 0. -/
def wPost : DocumentPointer Nat := { details := wDoc, termFrequency := [1] }

/-- A trie node holding `wPost` under char code 7. -/
def wNode : TrieL Nat := .node 7 [wPost] []

/-- A concrete single-field index state containing the single document
`wDoc` whose only term is the one-code-unit string `[7]`. -/
def wState : DocumentIndexState Nat Unit :=
  { documents := [(0, wDoc)]
    root := .node 0 [] [wNode]
    fields := [{ name := [9], getter := fun _ => none, boost := 1, sumLength := 2, avgLength := 2 }]
    tokenizer := fun s => [s]
    filter := id
    bm25k1 := 12 / 10
    bm25b := 3 / 4 }

/-- Witness for the BM25 scoring claim: at the concrete index `wState`, the
expansion `[7]` of the query term `[7]` and the posting `wPost`, the
hypotheses hold and the computed score equals the specification formula. -/
theorem search_posting_score_matches_spec_witness :
    getNode wState.root [7] = some wNode ∧
    wPost.details.fieldLengths.length = wState.fields.length ∧
    postingScore wState.fields wState.bm25k1 wState.bm25b
        (id (1 + ((wState.documents.length : ℚ)
            - ((wNode.postings.filter (fun p => !p.details.removed)).length : ℚ) + 1 / 2)
          / (((wNode.postings.filter (fun p => !p.details.removed)).length : ℚ) + 1 / 2)))
        (if ([7] : List Nat) = [7] then 1
          else id (1 + 1 / (1 + ((([7] : List Nat).length : ℚ) - (([7] : List Nat).length : ℚ)))))
        wPost
      = specPostingScore id wState [7] [7] wPost :=
  ⟨rfl, rfl, search_posting_score_matches_spec id wState [7] [7] wNode wPost rfl rfl⟩

/-! ## Field statistics under insertion -/

/-- The number of non-empty filtered terms of a token list
(`filteredTermsCount` in `add`). -/
def filteredTermCount (filter : List Nat → List Nat) (tokens : List (List Nat)) : Nat :=
  ((tokens.map filter).filter (fun t => !t.isEmpty)).length

theorem countFieldTokens_fst (filter : List Nat → List Nat) (fieldsNum i : Nat)
    (tokens : List (List Nat)) : ∀ (n : Nat) (tc : TermCounts),
    (tokens.foldl
      (fun acc tok =>
        let term := filter tok
        if term.isEmpty then acc
        else (acc.1 + 1, bumpTermCount acc.2 term fieldsNum i))
      (n, tc)).1 = n + filteredTermCount filter tokens := by
  induction tokens with
  | nil => intro n tc; simp [filteredTermCount]
  | cons tok rest ih =>
    intro n tc
    by_cases h : (filter tok).isEmpty
    · have hgoal := ih n tc
      simp only [List.foldl_cons, h, if_true]
      rw [hgoal]
      simp [filteredTermCount, h]
    · have hgoal := ih (n + 1) (bumpTermCount tc (filter tok) fieldsNum i)
      simp only [List.foldl_cons, h, if_false]
      rw [if_neg (by simpa using h), hgoal]
      simp only [filteredTermCount, List.map_cons, List.filter_cons]
      rw [if_pos (by simpa using h)]
      simp [Nat.add_assoc, Nat.add_comm 1]

theorem countFieldTokens_count (filter : List Nat → List Nat) (fieldsNum i : Nat)
    (tokens : List (List Nat)) (tc : TermCounts) :
    (countFieldTokens filter fieldsNum i tokens tc).1 = filteredTermCount filter tokens := by
  unfold countFieldTokens
  have := countFieldTokens_fst filter fieldsNum i tokens 0 tc
  simpa using this

/-- The per-field transformation `indexFields` applies to the field list:
fields with an absent accessor result are untouched; the others get
`sumLength += c` and `avgLength = sumLength / (docsSize + 1)` where `c` is
the field's filtered term count. -/
def fieldTransform (tokenizer : List Nat → List (List Nat)) (filter : List Nat → List Nat)
    (doc : D) (docsSize : Nat) (fd : FieldDetails D) : FieldDetails D :=
  match fd.getter doc with
  | none => fd
  | some text =>
    let c := filteredTermCount filter (tokenizer text)
    { fd with
      sumLength := fd.sumLength + c
      avgLength := (fd.sumLength + c) / ((docsSize : ℚ) + 1) }

/-- The per-field length `indexFields` records: `0` for an absent field, the
filtered term count otherwise. -/
def fieldLengthOf (tokenizer : List Nat → List (List Nat)) (filter : List Nat → List Nat)
    (doc : D) (fd : FieldDetails D) : Nat :=
  match fd.getter doc with
  | none => 0
  | some text => filteredTermCount filter (tokenizer text)

theorem indexFields_fields (tokenizer : List Nat → List (List Nat))
    (filter : List Nat → List Nat) (doc : D) (docsSize fieldsNum : Nat)
    (fs : List (FieldDetails D)) : ∀ (i : Nat) (tc : TermCounts),
    (indexFields tokenizer filter doc docsSize fieldsNum fs i tc).1
      = fs.map (fieldTransform tokenizer filter doc docsSize) := by
  induction fs with
  | nil => intro i tc; simp [indexFields]
  | cons fd rest ih =>
    intro i tc
    have hnone : fd.getter doc = none →
        fieldTransform tokenizer filter doc docsSize fd = fd := by
      intro hg; unfold fieldTransform; rw [hg]
    have hsome : ∀ text, fd.getter doc = some text →
        fieldTransform tokenizer filter doc docsSize fd
          = { fd with
              sumLength := fd.sumLength + (filteredTermCount filter (tokenizer text) : Nat)
              avgLength := (fd.sumLength + (filteredTermCount filter (tokenizer text) : Nat))
                / ((docsSize : ℚ) + 1) } := by
      intro text hg; unfold fieldTransform; rw [hg]
    unfold indexFields
    cases hg : fd.getter doc with
    | none => simp [hg, ih, hnone hg]
    | some text => simp [hg, ih, hsome text hg, countFieldTokens_count]

theorem indexFields_lengths (tokenizer : List Nat → List (List Nat))
    (filter : List Nat → List Nat) (doc : D) (docsSize fieldsNum : Nat)
    (fs : List (FieldDetails D)) : ∀ (i : Nat) (tc : TermCounts),
    (indexFields tokenizer filter doc docsSize fieldsNum fs i tc).2.1
      = fs.map (fieldLengthOf tokenizer filter doc) := by
  induction fs with
  | nil => intro i tc; simp [indexFields]
  | cons fd rest ih =>
    intro i tc
    have hnone : fd.getter doc = none → fieldLengthOf tokenizer filter doc fd = 0 := by
      intro hg; unfold fieldLengthOf; rw [hg]
    have hsome : ∀ text, fd.getter doc = some text →
        fieldLengthOf tokenizer filter doc fd = filteredTermCount filter (tokenizer text) := by
      intro text hg; unfold fieldLengthOf; rw [hg]
    unfold indexFields
    cases hg : fd.getter doc with
    | none => simp [hg, ih, hnone hg]
    | some text => simp [hg, ih, hsome text hg, countFieldTokens_count]

theorem getD_map_of_lt {α β : Type _} (f : α → β) (l : List α) (i : Nat) (hi : i < l.length)
    (d : β) (d' : α) : (l.map f).getD i d = f (l.getD i d') := by
  rw [List.getD_eq_getElem?_getD, List.getD_eq_getElem?_getD, List.getElem?_map,
    List.getElem?_eq_getElem hi]
  simp

theorem lookupDocument_setDocument_fresh [DecidableEq I]
    (docs : List (I × DocumentDetails I)) (id : I) (d : DocumentDetails I) :
    lookupDocument (setDocument docs id d) id = some d := by
  induction docs with
  | nil => simp [setDocument, lookupDocument]
  | cons e rest ih =>
    by_cases h : e.1 = id
    · simp [setDocument, lookupDocument, h]
    · simp only [setDocument, if_neg h]
      unfold lookupDocument
      rw [List.find?_cons_of_neg _ (by simp [h])]
      simpa [lookupDocument] using ih

/-- C5. Inserting a document under a fresh key updates the field statistics
field by field: a field whose accessor yields a value gets
`sumLength += c` and `avgLength = sumLength / (liveDocCount + 1)` — with `c`
the number of non-empty filtered tokens of the field's text and
`liveDocCount` the registry size before the new document is registered — and
records `fieldLengths[i] = c`; a field whose accessor yields absence keeps
its statistics unchanged and records `fieldLengths[i] = 0`. -/
theorem add_field_statistics [DecidableEq I] (st : DocumentIndexState I D) (id : I) (doc : D)
    (_hfresh : lookupDocument st.documents id = none) (i : Nat) (hi : i < st.fields.length) :
    ((st.fields.getD i (emptyField D)).getter doc = none →
      (addDocument st id doc).fields.getD i (emptyField D) = st.fields.getD i (emptyField D) ∧
      (lookupDocument (addDocument st id doc).documents id).map
          (fun d => d.fieldLengths.getD i 0) = some 0) ∧
    (∀ text, (st.fields.getD i (emptyField D)).getter doc = some text →
      ((addDocument st id doc).fields.getD i (emptyField D)).sumLength
          = (st.fields.getD i (emptyField D)).sumLength
            + (filteredTermCount st.filter (st.tokenizer text) : Nat) ∧
      ((addDocument st id doc).fields.getD i (emptyField D)).avgLength
          = ((addDocument st id doc).fields.getD i (emptyField D)).sumLength
            / ((st.documents.length : ℚ) + 1) ∧
      (lookupDocument (addDocument st id doc).documents id).map
          (fun d => d.fieldLengths.getD i 0)
        = some (filteredTermCount st.filter (st.tokenizer text))) := by
  have hfields : (addDocument st id doc).fields
      = st.fields.map (fieldTransform st.tokenizer st.filter doc st.documents.length) := by
    unfold addDocument
    simp [indexFields_fields]
  have hdocs : lookupDocument (addDocument st id doc).documents id
      = some { docId := id, removed := false,
               fieldLengths := st.fields.map (fieldLengthOf st.tokenizer st.filter doc) } := by
    unfold addDocument
    simp only [indexFields_lengths]
    exact lookupDocument_setDocument_fresh st.documents id _
  have hgetD : (addDocument st id doc).fields.getD i (emptyField D)
      = fieldTransform st.tokenizer st.filter doc st.documents.length
          (st.fields.getD i (emptyField D)) := by
    rw [hfields]
    exact getD_map_of_lt _ _ i hi _ _
  have hlen : ∀ d',
      (st.fields.map (fieldLengthOf st.tokenizer st.filter doc)).getD i d'
        = fieldLengthOf st.tokenizer st.filter doc (st.fields.getD i (emptyField D)) :=
    fun d' => getD_map_of_lt _ _ i hi d' (emptyField D)
  constructor
  · intro hg
    refine ⟨?_, ?_⟩
    · rw [hgetD]; unfold fieldTransform; rw [hg]
    · rw [hdocs]
      simp only [Option.map_some']
      rw [hlen 0]
      unfold fieldLengthOf
      rw [hg]
  · intro text hg
    have htr : fieldTransform st.tokenizer st.filter doc st.documents.length
        (st.fields.getD i (emptyField D))
        = { st.fields.getD i (emptyField D) with
            sumLength := (st.fields.getD i (emptyField D)).sumLength
              + (filteredTermCount st.filter (st.tokenizer text) : Nat)
            avgLength := ((st.fields.getD i (emptyField D)).sumLength
              + (filteredTermCount st.filter (st.tokenizer text) : Nat))
              / ((st.documents.length : ℚ) + 1) } := by
      unfold fieldTransform; rw [hg]
    refine ⟨?_, ?_, ?_⟩
    · rw [hgetD, htr]
    · rw [hgetD, htr]
    · rw [hdocs]
      simp only [Option.map_some']
      rw [hlen 0]
      unfold fieldLengthOf
      rw [hg]

/-- A fresh-key document for the insertion witness. -/
def wDoc2 : List Nat := [3, 0, 4]

/-- A single-field index state over documents that are their own field text,
with one live document already registered, used by the insertion witness. -/
def wAddState : DocumentIndexState Nat (List Nat) :=
  { documents := [(1, { docId := 1, removed := false, fieldLengths := [2] })]
    root := .node 0 [] []
    fields := [{ name := [9], getter := fun d => some d, boost := 1, sumLength := 2, avgLength := 2 }]
    tokenizer := fun s => s.splitOn 0
    filter := id
    bm25k1 := 12 / 10
    bm25b := 3 / 4 }

/-- Witness for the insertion field-statistics claim at a concrete state:
adding a new document whose single field tokenizes to two non-empty terms
takes `sumLength` from 2 to 4 and `avgLength` to `4 / 2`. -/
theorem add_field_statistics_witness :
    lookupDocument wAddState.documents 5 = none ∧ 0 < wAddState.fields.length ∧
    (∀ text, (wAddState.fields.getD 0 (emptyField (List Nat))).getter wDoc2 = some text →
      ((addDocument wAddState 5 wDoc2).fields.getD 0 (emptyField (List Nat))).sumLength
          = (wAddState.fields.getD 0 (emptyField (List Nat))).sumLength
            + (filteredTermCount wAddState.filter (wAddState.tokenizer text) : Nat) ∧
      ((addDocument wAddState 5 wDoc2).fields.getD 0 (emptyField (List Nat))).avgLength
          = ((addDocument wAddState 5 wDoc2).fields.getD 0 (emptyField (List Nat))).sumLength
            / ((wAddState.documents.length : ℚ) + 1) ∧
      (lookupDocument (addDocument wAddState 5 wDoc2).documents 5).map
          (fun d => d.fieldLengths.getD 0 0)
        = some (filteredTermCount wAddState.filter (wAddState.tokenizer text))) :=
  ⟨by decide, by decide,
    (add_field_statistics wAddState 5 wDoc2 (by decide) 0 (by decide)).2⟩

/-! ## IEEE-faithful embedding of the `remove` field-statistics update

The exact-rational model above uses Lean's `q / 0 = 0` convention, which is
adequate everywhere the source divides by a provably positive count.  The one
division whose zero case is observable is
`field.avgLength = field.sumLength / this._documents.size` in
`DocumentIndex.remove`, reached with `size = 0` when the last live document is
removed.  The definitions below re-embed exactly that update with JavaScript
number semantics for the division (`x / 0` is `Infinity`, `-Infinity` or
`NaN` by the sign of `x`); all values fed to it in the modelled scenarios are
exactly representable, so the rational model is exact elsewhere. -/

/-- A JavaScript number: a finite value (modelled exactly as a rational), one
of the two infinities, or `NaN`. -/
inductive JsVal where
  | num (q : ℚ)
  | posInf
  | negInf
  | nan
deriving DecidableEq, Repr

/-- JavaScript division of two finite numbers: IEEE semantics for a zero
divisor, exact rational division otherwise. -/
def jsDiv (a b : ℚ) : JsVal :=
  if b = 0 then
    if a = 0 then .nan else if 0 < a then .posInf else .negInf
  else .num (a / b)

/-- Field statistics with an IEEE-faithful average. -/
structure FieldStatsJs where
  sumLength : ℚ
  avgLength : JsVal
deriving DecidableEq, Repr

/-- The registry/statistics fragment of a `DocumentIndex` used by the
IEEE-faithful embedding of `remove`. -/
structure RegistryStateJs (I : Type) where
  documents : List (I × DocumentDetails I)
  fields : List FieldStatsJs
deriving DecidableEq, Repr

/-- The field-statistics part of `DocumentIndex.add` under JavaScript number
semantics: given the per-field filtered term counts (`none` for an absent
field), update `sumLength += c` and `avgLength = sumLength / (size + 1)` for
each present field and register the document. -/
def jsAddStats [DecidableEq I] (st : RegistryStateJs I) (id : I) (counts : List (Option Nat)) :
    RegistryStateJs I :=
  let fields' := mapWithIndex
    (fun i fd =>
      match counts.getD i none with
      | none => fd
      | some c =>
        { fd with
          sumLength := fd.sumLength + c
          avgLength := jsDiv (fd.sumLength + c) ((st.documents.length : ℚ) + 1) })
    st.fields 0
  { documents := setDocument st.documents id
      { docId := id, removed := false, fieldLengths := counts.map (fun c => c.getD 0) }
    fields := fields' }

/-- The field-statistics part of `DocumentIndex.remove` under JavaScript
number semantics: delete the registry entry and, for every field with a
positive recorded length, subtract it from `sumLength` and recompute
`avgLength = sumLength / documents.size` over the shrunken registry — the
division is the JavaScript one, with no guard for `size = 0`. -/
def jsRemoveStats [DecidableEq I] (st : RegistryStateJs I) (id : I) : RegistryStateJs I :=
  match lookupDocument st.documents id with
  | none => st
  | some details =>
    let documents' := eraseDocument st.documents id
    let fields' := mapWithIndex
      (fun i fd =>
        let fieldLength := details.fieldLengths.getD i 0
        if 0 < fieldLength then
          { fd with
            sumLength := fd.sumLength - fieldLength
            avgLength := jsDiv (fd.sumLength - (fieldLength : ℚ)) (documents'.length : ℚ) }
        else fd)
      st.fields 0
    { documents := documents', fields := fields' }

/-- The concrete removal scenario: a fresh index over one field, one document
with two filtered terms added, then removed again. -/
def wJsState : RegistryStateJs Nat :=
  jsAddStats { documents := [], fields := [{ sumLength := 0, avgLength := .num 0 }] } 0 [some 2]

theorem getD_mapWithIndex {α : Type _} (f : Nat → α → α) (l : List α) :
    ∀ (j i : Nat), i < l.length → ∀ (d : α),
    (mapWithIndex f l j).getD i d = f (j + i) (l.getD i d) := by
  induction l with
  | nil => intro j i hi d; cases hi
  | cons a rest ih =>
    intro j i hi d
    cases i with
    | zero => simp [mapWithIndex]
    | succ i' =>
      have hi' : i' < rest.length := by simpa using hi
      simp only [mapWithIndex, List.getD_cons_succ]
      rw [ih (j + 1) i' hi' d]
      congr 1
      omega

theorem jsRemoveStats_fields_getD [DecidableEq I] (st : RegistryStateJs I) (id : I)
    (details : DocumentDetails I) (i : Nat) (d : FieldStatsJs)
    (hfound : lookupDocument st.documents id = some details) (hi : i < st.fields.length) :
    (jsRemoveStats st id).fields.getD i d
      = if 0 < details.fieldLengths.getD i 0 then
          { st.fields.getD i d with
            sumLength := (st.fields.getD i d).sumLength - (details.fieldLengths.getD i 0 : ℚ)
            avgLength := jsDiv
              ((st.fields.getD i d).sumLength - (details.fieldLengths.getD i 0 : ℚ))
              ((eraseDocument st.documents id).length : ℚ) }
        else st.fields.getD i d := by
  unfold jsRemoveStats
  rw [hfound]
  dsimp only
  rw [getD_mapWithIndex _ _ 0 i hi d, Nat.zero_add]

/-- C4, counterexample.  Removing the only live document takes the live
document count to zero and the document's field 0 has recorded length
`2 > 0`, yet the recomputed `avgLength` is the JavaScript result of `0 / 0` —
`NaN` — and not `0`: the claimed division-by-zero-yields-0 convention is not
what the code computes. -/
theorem remove_avg_div_by_zero_counterexample :
    (jsRemoveStats wJsState 0).documents.length = 0 ∧
    (lookupDocument wJsState.documents 0).map (fun d => d.fieldLengths.getD 0 0) = some 2 ∧
    ((jsRemoveStats wJsState 0).fields.getD 0 { sumLength := 0, avgLength := .num 0 }).avgLength
        = .nan ∧
    ((jsRemoveStats wJsState 0).fields.getD 0 { sumLength := 0, avgLength := .num 0 }).avgLength
        ≠ .num 0 := by
  have hfg := jsRemoveStats_fields_getD wJsState 0
    { docId := 0, removed := false, fieldLengths := [2] } 0
    { sumLength := 0, avgLength := .num 0 } (by decide) (by decide)
  rw [if_pos (by decide)] at hfg
  have hlen0 : ((eraseDocument wJsState.documents 0).length : ℚ) = 0 := by
    norm_num [wJsState, jsAddStats, setDocument, eraseDocument]
  rw [hlen0] at hfg
  have hsum : (wJsState.fields.getD 0 { sumLength := 0, avgLength := .num 0 }).sumLength = 2 := by
    norm_num [wJsState, jsAddStats, mapWithIndex]
  have havg : ((jsRemoveStats wJsState 0).fields.getD 0
      { sumLength := 0, avgLength := .num 0 }).avgLength = .nan := by
    rw [hfg]
    dsimp only
    rw [hsum]
    norm_num [jsDiv]
  exact ⟨by decide, by decide, havg, by rw [havg]; decide⟩

/-- C4, amended.  When `remove` is called on a live document and the removal
empties the live registry, every field `i` with recorded length
`fieldLengths[i] > 0` gets `sumLength` decremented by that length and
`avgLength` recomputed as the JavaScript quotient `sumLength / 0`; in
particular, when the decremented sum is zero — always the case for states
reachable with unique keys, where the last document's lengths are the whole
sum — the average becomes `NaN`, not `0`. -/
theorem remove_avg_div_by_zero_amended [DecidableEq I] (st : RegistryStateJs I) (id : I)
    (details : DocumentDetails I) (i : Nat)
    (hfound : lookupDocument st.documents id = some details)
    (hempty : (eraseDocument st.documents id).length = 0)
    (hi : i < st.fields.length)
    (hlen : 0 < details.fieldLengths.getD i 0) :
    ((jsRemoveStats st id).fields.getD i { sumLength := 0, avgLength := .num 0 }).avgLength
        = jsDiv ((st.fields.getD i { sumLength := 0, avgLength := .num 0 }).sumLength
            - (details.fieldLengths.getD i 0 : ℚ)) 0 ∧
    ((st.fields.getD i { sumLength := 0, avgLength := .num 0 }).sumLength
        = (details.fieldLengths.getD i 0 : ℚ) →
      ((jsRemoveStats st id).fields.getD i { sumLength := 0, avgLength := .num 0 }).avgLength
        = .nan) := by
  have hfg := jsRemoveStats_fields_getD st id details i
    { sumLength := 0, avgLength := .num 0 } hfound hi
  rw [if_pos hlen, hempty] at hfg
  rw [Nat.cast_zero] at hfg
  refine ⟨by rw [hfg], ?_⟩
  intro hsum
  rw [hfg]
  dsimp only
  rw [hsum, sub_self]
  simp [jsDiv]

/-- Witness for the amended removal claim, at the same concrete scenario as
the counterexample. -/
theorem remove_avg_div_by_zero_amended_witness :
    lookupDocument wJsState.documents 0
        = some { docId := 0, removed := false, fieldLengths := [2] } ∧
    (eraseDocument wJsState.documents 0).length = 0 ∧
    0 < wJsState.fields.length ∧
    0 < ({ docId := 0, removed := false, fieldLengths := [2] }
        : DocumentDetails Nat).fieldLengths.getD 0 0 ∧
    ((jsRemoveStats wJsState 0).fields.getD 0 { sumLength := 0, avgLength := .num 0 }).avgLength
        = jsDiv ((wJsState.fields.getD 0 { sumLength := 0, avgLength := .num 0 }).sumLength
            - (({ docId := 0, removed := false, fieldLengths := [2] }
                : DocumentDetails Nat).fieldLengths.getD 0 0 : ℚ)) 0 :=
  ⟨by decide, by decide, by decide, by decide,
    (remove_avg_div_by_zero_amended wJsState 0
      { docId := 0, removed := false, fieldLengths := [2] } 0
      (by decide) (by decide) (by decide) (by decide)).1⟩

/-! ## Search result invariants -/

/-- All postings reachable in a trie subtree. -/
def postingsOf : TrieL I → List (DocumentPointer I)
  | .node _ ps cs => ps ++ cs.attach.flatMap (fun c => postingsOf c.1)
termination_by t => sizeOf t
decreasing_by exact TrieL.sizeOf_mem_children c.2

theorem postingsOf_node (k : Nat) (ps : List (DocumentPointer I)) (cs : List (TrieL I)) :
    postingsOf (.node k ps cs) = ps ++ cs.flatMap (fun c => postingsOf c) := by
  rw [postingsOf]
  simp

theorem findChild_mem {cs : List (TrieL I)} {c : Nat} {ch : TrieL I}
    (h : findChild cs c = some ch) : ch ∈ cs :=
  List.mem_of_find?_eq_some h

theorem getNode_postings_sub {t : TrieL I} {e : List Nat} {nd : TrieL I}
    (h : getNode t e = some nd) : ∀ p ∈ nd.postings, p ∈ postingsOf t := by
  induction e generalizing t with
  | nil =>
    simp only [getNode, Option.some_inj] at h
    subst h
    intro p hp
    cases t with
    | node k ps cs => rw [postingsOf_node]; exact List.mem_append_left _ hp
  | cons c rest ih =>
    simp only [getNode] at h
    cases hfc : findChild t.children c with
    | none => rw [hfc] at h; cases h
    | some ch =>
      rw [hfc] at h
      intro p hp
      have hsub := ih h p hp
      cases t with
      | node k ps cs =>
        rw [postingsOf_node]
        refine List.mem_append_right _ ?_
        rw [List.mem_flatMap]
        exact ⟨ch, findChild_mem hfc, hsub⟩

/-- The invariant maintained by the score accumulator of `search`: keys are
pairwise distinct, every recorded score is positive, and every recorded key
has a live (non-removed) posting somewhere in the trie. -/
def ScoresOk [DecidableEq I] (root : TrieL I) (sc : Scores I) : Prop :=
  (sc.map (·.1)).Nodup ∧
  ∀ e ∈ sc, 0 < e.2 ∧ ∃ p ∈ postingsOf root, p.details.docId = e.1 ∧ p.details.removed = false

theorem setScore_keys [DecidableEq I] (sc : Scores I) (k : I) (v : ℚ) :
    (setScore sc k v).map (·.1)
      = if k ∈ sc.map (·.1) then sc.map (·.1) else sc.map (·.1) ++ [k] := by
  induction sc with
  | nil => simp [setScore]
  | cons e rest ih =>
    by_cases h : e.1 = k
    · simp [setScore, h]
    · simp only [setScore, if_neg h, List.map_cons, ih]
      have hne : ¬ k = e.1 := fun hh => h hh.symm
      by_cases hk : k ∈ rest.map (·.1)
      · simp [hk, List.mem_cons, hne]
      · simp [hk, List.mem_cons, hne]

theorem setScore_mem [DecidableEq I] {sc : Scores I} {k : I} {v : ℚ} :
    ∀ e ∈ setScore sc k v, e = (k, v) ∨ e ∈ sc := by
  induction sc with
  | nil => simp [setScore]
  | cons hd rest ih =>
    intro e he
    by_cases h : hd.1 = k
    · rw [setScore, if_pos h, List.mem_cons] at he
      rcases he with he | he
      · exact Or.inl he
      · exact Or.inr (List.mem_cons_of_mem _ he)
    · rw [setScore, if_neg h, List.mem_cons] at he
      rcases he with he | he
      · exact Or.inr (he ▸ List.mem_cons_self hd rest)
      · rcases ih e he with h1 | h1
        · exact Or.inl h1
        · exact Or.inr (List.mem_cons_of_mem _ h1)

theorem getScore_mem [DecidableEq I] {sc : Scores I} {k : I} {v : ℚ}
    (h : getScore sc k = some v) : (k, v) ∈ sc := by
  induction sc with
  | nil => simp [getScore] at h
  | cons e rest ih =>
    by_cases he : e.1 = k
    · rw [getScore, List.find?_cons_of_pos _ (by simp [he])] at h
      simp only [Option.map_some', Option.some_inj] at h
      have hkv : (k, v) = e := by
        rw [← he, ← h]
      rw [hkv]
      exact List.mem_cons_self e rest
    · rw [getScore, List.find?_cons_of_neg _ (by simp [he])] at h
      exact List.mem_cons_of_mem _ (ih h)

theorem scoresOk_setScore [DecidableEq I] {root : TrieL I} {sc : Scores I} {k : I} {v : ℚ}
    (h : ScoresOk root sc) (hv : 0 < v)
    (hlive : ∃ p ∈ postingsOf root, p.details.docId = k ∧ p.details.removed = false) :
    ScoresOk root (setScore sc k v) := by
  obtain ⟨hnd, hmem⟩ := h
  constructor
  · rw [setScore_keys]
    by_cases hk : k ∈ sc.map (·.1)
    · simpa [hk] using hnd
    · simp only [hk, if_false]
      simpa [List.nodup_append, hk] using hnd
  · intro e he
    rcases setScore_mem e he with rfl | he'
    · exact ⟨hv, hlive⟩
    · exact hmem e he'

theorem scoresOk_processPosting [DecidableEq I] {root : TrieL I}
    (flds : List (FieldDetails D)) (k1 b idf eb : ℚ) (acc : Scores I × List I)
    (p : DocumentPointer I) (h : ScoresOk root acc.1) (hp : p ∈ postingsOf root) :
    ScoresOk root (processPosting flds k1 b idf eb acc p).1 := by
  unfold processPosting
  by_cases hrem : p.details.removed
  · simpa [hrem] using h
  · simp only [hrem, if_false, Bool.false_eq_true]
    by_cases hs : 0 < postingScore flds k1 b idf eb p
    · simp only [hs, if_true]
      have hlive : ∃ q ∈ postingsOf root,
          q.details.docId = p.details.docId ∧ q.details.removed = false :=
        ⟨p, hp, rfl, by simpa using hrem⟩
      cases hg : getScore acc.1 p.details.docId with
      | none => exact scoresOk_setScore h hs hlive
      | some prev =>
        have hprev : 0 < prev := (h.2 _ (getScore_mem hg)).1
        by_cases hvis : p.details.docId ∈ acc.2
        · simp only [hvis, if_true]
          exact scoresOk_setScore h (lt_max_of_lt_left hprev) hlive
        · simp only [hvis, if_false]
          exact scoresOk_setScore h (by positivity) hlive
    · simpa [hs] using h

theorem scoresOk_processPostingList [DecidableEq I] {root : TrieL I}
    (flds : List (FieldDetails D)) (k1 b idf eb : ℚ) (ps : List (DocumentPointer I)) :
    ∀ (acc : Scores I × List I), ScoresOk root acc.1 → (∀ p ∈ ps, p ∈ postingsOf root) →
    ScoresOk root (ps.foldl (processPosting flds k1 b idf eb) acc).1 := by
  induction ps with
  | nil => intro acc h _; simpa using h
  | cons p rest ih =>
    intro acc h hps
    rw [List.foldl_cons]
    exact ih _ (scoresOk_processPosting flds k1 b idf eb acc p h (hps p (List.mem_cons_self _ _)))
      (fun q hq => hps q (List.mem_cons_of_mem _ hq))

theorem scoresOk_processExpansion [DecidableEq I] (jsLog : ℚ → ℚ)
    (st : DocumentIndexState I D) (term : List Nat) (acc : Scores I × List I)
    (eTerm : List Nat) (h : ScoresOk st.root acc.1) :
    ScoresOk st.root (processExpansion jsLog st term acc eTerm).1 := by
  unfold processExpansion
  cases hnd : getNode st.root eTerm with
  | none => simpa using h
  | some nd =>
    simp only
    by_cases hemp : nd.postings.isEmpty
    · simpa [hemp] using h
    · simp only [hemp, if_false, Bool.false_eq_true]
      by_cases hdf : 0 < (nd.postings.filter (fun p => !p.details.removed)).length
      · simp only [hdf, if_true]
        exact scoresOk_processPostingList _ _ _ _ _ _ acc h (getNode_postings_sub hnd)
      · simpa [hdf] using h

theorem scoresOk_processQueryTerm [DecidableEq I] (jsLog : ℚ → ℚ)
    (st : DocumentIndexState I D) (sc : Scores I) (term : List Nat)
    (h : ScoresOk st.root sc) : ScoresOk st.root (processQueryTerm jsLog st sc term) := by
  unfold processQueryTerm
  generalize (expandTermL st.root term) = es
  suffices hgen : ∀ (acc : Scores I × List I), ScoresOk st.root acc.1 →
      ScoresOk st.root (es.foldl (processExpansion jsLog st term) acc).1 from
    hgen (sc, []) h
  induction es with
  | nil => intro acc hacc; simpa using hacc
  | cons e rest ih =>
    intro acc hacc
    rw [List.foldl_cons]
    exact ih _ (scoresOk_processExpansion jsLog st term acc e hacc)

theorem scoresOk_searchScores [DecidableEq I] (jsLog : ℚ → ℚ)
    (st : DocumentIndexState I D) (q : List Nat) :
    ScoresOk st.root (searchScores jsLog st q) := by
  unfold searchScores
  generalize (st.tokenizer q) = toks
  suffices hgen : ∀ (sc : Scores I), ScoresOk st.root sc →
      ScoresOk st.root (toks.foldl
        (fun sc tok =>
          let term := st.filter tok
          if term.isEmpty then sc else processQueryTerm jsLog st sc term) sc) from
    hgen [] ⟨List.nodup_nil, by simp⟩
  induction toks with
  | nil => intro sc h; simpa using h
  | cons tok rest ih =>
    intro sc h
    rw [List.foldl_cons]
    by_cases he : (st.filter tok).isEmpty
    · exact ih _ (by simpa [he] using h)
    · refine ih _ ?_
      simp only [he, if_false, Bool.false_eq_true]
      exact scoresOk_processQueryTerm jsLog st sc _ h

theorem insertByScoreDesc_perm (x : I × ℚ) (l : List (I × ℚ)) :
    List.Perm (insertByScoreDesc x l) (x :: l) := by
  induction l with
  | nil => exact List.Perm.refl _
  | cons y ys ih =>
    unfold insertByScoreDesc
    by_cases h : y.2 ≤ x.2
    · simp only [h, if_true]
      exact List.Perm.refl _
    · simp only [h, if_false]
      exact List.Perm.trans (ih.cons y) (List.Perm.swap x y ys)

theorem sortByScoreDesc_perm (l : List (I × ℚ)) : List.Perm (sortByScoreDesc l) l := by
  induction l with
  | nil => exact List.Perm.refl _
  | cons x xs ih =>
    unfold sortByScoreDesc
    exact List.Perm.trans (insertByScoreDesc_perm x _) (ih.cons x)

/-- C10.  Every result list returned by `search` has pairwise-distinct
document keys and strictly positive scores, and no key all of whose postings
carry the removed flag (in particular, no key of a removed document, whose
shared details every one of its postings references) appears among the
results — for every index state and every query. -/
theorem search_results_ok [DecidableEq I] (jsLog : ℚ → ℚ) (st : DocumentIndexState I D)
    (q : List Nat) :
    ((search jsLog st q).map (·.1)).Nodup ∧
    (∀ r ∈ search jsLog st q, 0 < r.2) ∧
    (∀ k : I, (∀ p ∈ postingsOf st.root, p.details.docId = k → p.details.removed = true) →
      k ∉ (search jsLog st q).map (·.1)) := by
  have hok := scoresOk_searchScores jsLog st q
  have hperm : List.Perm (search jsLog st q) (searchScores jsLog st q) :=
    sortByScoreDesc_perm _
  have hkeys : List.Perm ((search jsLog st q).map (·.1))
      ((searchScores jsLog st q).map (·.1)) := hperm.map _
  refine ⟨hkeys.nodup_iff.mpr hok.1, ?_, ?_⟩
  · intro r hr
    exact (hok.2 r (hperm.mem_iff.mp hr)).1
  · intro k hall hk
    rcases List.mem_map.mp (hkeys.mem_iff.mp hk) with ⟨e, he, hek⟩
    rcases (hok.2 e he).2 with ⟨p, hp, hpk, hprem⟩
    rw [hall p hp (hek ▸ hpk)] at hprem
    cases hprem

/-- Witness for the search-result invariants at the concrete state `wState`
(whose only posting is live) with a removed key `99` that has no postings. -/
theorem search_results_ok_witness :
    (∀ p ∈ postingsOf wState.root, p.details.docId = 99 → p.details.removed = true) ∧
    (99 : Nat) ∉ (search id wState [7]).map (·.1) :=
  ⟨by simp [wState, wNode, wPost, wDoc, postingsOf_node],
    (search_results_ok id wState [7]).2.2 99
      (by simp [wState, wNode, wPost, wDoc, postingsOf_node])⟩

/-! ## The intra-query-term score combination policy -/

theorem getScore_setScore_self [DecidableEq I] (sc : Scores I) (k : I) (v : ℚ) :
    getScore (setScore sc k v) k = some v := by
  induction sc with
  | nil => simp [setScore, getScore]
  | cons e rest ih =>
    by_cases h : e.1 = k
    · simp [setScore, h, getScore]
    · rw [setScore, if_neg h, getScore, List.find?_cons_of_neg _ (by simp [h])]
      exact ih

theorem getScore_setScore_ne [DecidableEq I] (sc : Scores I) (j k : I) (v : ℚ)
    (hjk : j ≠ k) : getScore (setScore sc j v) k = getScore sc k := by
  induction sc with
  | nil => simp [setScore, getScore, hjk]
  | cons e rest ih =>
    by_cases h : e.1 = j
    · rw [setScore, if_pos h]
      rw [getScore, List.find?_cons_of_neg _ (by simp [hjk]), getScore,
        List.find?_cons_of_neg _ (by simp [h ▸ hjk])]
    · rw [setScore, if_neg h]
      by_cases hek : e.1 = k
      · rw [getScore, List.find?_cons_of_pos _ (by simp [hek]), getScore,
          List.find?_cons_of_pos _ (by simp [hek])]
      · rw [getScore, List.find?_cons_of_neg _ (by simp [hek]), getScore,
          List.find?_cons_of_neg _ (by simp [hek])]
        exact ih

theorem mem_insertVisited [DecidableEq I] (vis : List I) (j k : I) :
    k ∈ insertVisited vis j ↔ k = j ∨ k ∈ vis := by
  unfold insertVisited
  by_cases h : j ∈ vis
  · simp only [h, if_true]
    constructor
    · exact Or.inr
    · rintro (rfl | hk)
      · exact h
      · exact hk
  · simp [h, List.mem_cons]

/-- The list of positive posting scores that one posting list yields for
document `k`, in traversal order: exactly the occasions on which `search`
updates `scores[k]` (a removed posting or a non-positive score never
does). -/
def postingEvents [DecidableEq I] (flds : List (FieldDetails D)) (k1 b idf eb : ℚ) (k : I)
    (ps : List (DocumentPointer I)) : List ℚ :=
  ps.filterMap (fun p =>
    if p.details.removed then none
    else
      let s := postingScore flds k1 b idf eb p
      if 0 < s then (if p.details.docId = k then some s else none) else none)

/-- The positive scores the expansion `eTerm` of the query term `term` yields
for document `k`: empty when the expansion's node is missing, has no
postings, or has live document frequency zero, and the posting events at the
expansion's `idf`/expansion boost otherwise. -/
def expansionEvents [DecidableEq I] (jsLog : ℚ → ℚ) (st : DocumentIndexState I D)
    (term : List Nat) (k : I) (eTerm : List Nat) : List ℚ :=
  let eb : ℚ :=
    if eTerm = term then 1
    else jsLog (1 + 1 / (1 + ((eTerm.length : ℚ) - (term.length : ℚ))))
  match getNode st.root eTerm with
  | none => []
  | some nd =>
    if nd.postings.isEmpty then []
    else
      let df : Nat := (nd.postings.filter (fun p => !p.details.removed)).length
      if 0 < df then
        let idf : ℚ :=
          jsLog (1 + ((st.documents.length : ℚ) - (df : ℚ) + 1 / 2) / ((df : ℚ) + 1 / 2))
        postingEvents st.fields st.bm25k1 st.bm25b idf eb k nd.postings
      else []

/-- All positive scores the expansions of one query term yield for document
`k`, in expansion order. -/
def queryTermEvents [DecidableEq I] (jsLog : ℚ → ℚ) (st : DocumentIndexState I D)
    (term : List Nat) (k : I) : List ℚ :=
  (expandTermL st.root term).flatMap (expansionEvents jsLog st term k)

/-- One query term's effect on a score entry, replayed over the entry's event
list: the first event of the term is added to the running score (absent
counts as `0`) and every later event of the same term only takes the maximum
with the current value. -/
def applyEvents : Option ℚ → Bool → List ℚ → Option ℚ
  | prev, _, [] => prev
  | prev, seen, s :: rest =>
    applyEvents (some (if seen then max (prev.getD 0) s else prev.getD 0 + s)) true rest

/-- The closed form of `applyEvents` from an unseen start: no event leaves
the entry alone; otherwise the first event is added and the rest fold through
`max`. -/
def maxChain : Option ℚ → List ℚ → Option ℚ
  | prev, [] => prev
  | prev, s :: rest => some (rest.foldl max (prev.getD 0 + s))

theorem applyEvents_true (a : ℚ) (evs : List ℚ) :
    applyEvents (some a) true evs = some (evs.foldl max a) := by
  induction evs generalizing a with
  | nil => simp [applyEvents]
  | cons s rest ih =>
    rw [applyEvents, if_pos rfl]
    simp only [Option.getD_some]
    rw [ih, List.foldl_cons]

theorem applyEvents_cons_true (prev s : ℚ) (evs : List ℚ) :
    applyEvents (some prev) true (s :: evs) = applyEvents (some (max prev s)) true evs := by
  rw [applyEvents]
  simp

theorem applyEvents_cons_false (prev : Option ℚ) (s : ℚ) (evs : List ℚ) :
    applyEvents prev false (s :: evs) = applyEvents (some (prev.getD 0 + s)) true evs := by
  rw [applyEvents]
  simp

theorem applyEvents_false_eq_maxChain (prev : Option ℚ) (evs : List ℚ) :
    applyEvents prev false evs = maxChain prev evs := by
  cases evs with
  | nil => rfl
  | cons s rest =>
    rw [applyEvents, maxChain, if_neg (by simp)]
    exact applyEvents_true _ _

theorem applyEvents_append (a : List ℚ) : ∀ (prev : Option ℚ) (seen : Bool) (b : List ℚ),
    applyEvents prev seen (a ++ b)
      = applyEvents (applyEvents prev seen a) (seen || !a.isEmpty) b := by
  induction a with
  | nil => intro prev seen b; simp [applyEvents]
  | cons s rest ih =>
    intro prev seen b
    rw [List.cons_append, applyEvents, ih, applyEvents]
    simp

theorem processPostingList_eventChain [DecidableEq I] (flds : List (FieldDetails D))
    (k1 b idf eb : ℚ) (k : I) :
    ∀ (ps : List (DocumentPointer I)) (sc : Scores I) (vis : List I) (seen : Bool),
    (seen = true ↔ k ∈ vis) → (seen = true → ∃ v, getScore sc k = some v) →
    getScore ((ps.foldl (processPosting flds k1 b idf eb) (sc, vis)).1) k
        = applyEvents (getScore sc k) seen (postingEvents flds k1 b idf eb k ps) ∧
    ((k ∈ (ps.foldl (processPosting flds k1 b idf eb) (sc, vis)).2) ↔
        (seen || !(postingEvents flds k1 b idf eb k ps).isEmpty) = true) ∧
    ((seen || !(postingEvents flds k1 b idf eb k ps).isEmpty) = true →
        ∃ v, getScore ((ps.foldl (processPosting flds k1 b idf eb) (sc, vis)).1) k = some v) := by
  intro ps
  induction ps with
  | nil =>
    intro sc vis seen hseen hinv
    refine ⟨by simp [postingEvents, applyEvents], ?_, ?_⟩
    · simp only [List.foldl_nil, postingEvents, List.filterMap_nil, List.isEmpty_nil,
        Bool.not_true, Bool.or_false]
      exact hseen.symm
    · intro h
      apply hinv
      simpa [postingEvents] using h
  | cons p ps ih =>
    intro sc vis seen hseen hinv
    rw [List.foldl_cons]
    by_cases hrem : p.details.removed
    · have hF : processPosting flds k1 b idf eb (sc, vis) p = (sc, vis) := by
        simp [processPosting, hrem]
      have hevs : postingEvents flds k1 b idf eb k (p :: ps)
          = postingEvents flds k1 b idf eb k ps := by
        rw [postingEvents, List.filterMap_cons]
        simp [hrem, postingEvents]
      rw [hF, hevs]
      exact ih sc vis seen hseen hinv
    · by_cases hs : 0 < postingScore flds k1 b idf eb p
      · by_cases hdk : p.details.docId = k
        · -- the posting scores document k itself
          have hevs : postingEvents flds k1 b idf eb k (p :: ps)
              = postingScore flds k1 b idf eb p :: postingEvents flds k1 b idf eb k ps := by
            rw [postingEvents, List.filterMap_cons]
            simp [hrem, hs, hdk, postingEvents]
          rw [hevs]
          have hvismem : k ∈ insertVisited vis k := by
            rw [mem_insertVisited]
            exact Or.inl rfl
          cases hg : getScore sc k with
          | some prev =>
            by_cases hv : k ∈ vis
            · -- already seen in this query term: maximum
              have hseentrue : seen = true := hseen.mpr hv
              have hF : processPosting flds k1 b idf eb (sc, vis) p
                  = (setScore sc k (max prev (postingScore flds k1 b idf eb p)),
                     insertVisited vis k) := by
                simp [processPosting, hrem, hs, hdk, hg, hv]
              rw [hF]
              obtain ⟨ih1, ih2, ih3⟩ := ih
                (setScore sc k (max prev (postingScore flds k1 b idf eb p)))
                (insertVisited vis k) true
                (by simpa using hvismem)
                (fun _ => ⟨_, getScore_setScore_self sc k _⟩)
              refine ⟨?_, ?_, fun _ => ih3 (by simp)⟩
              · rw [ih1, getScore_setScore_self, hseentrue, applyEvents_cons_true]
              · rw [ih2]
                simp [hseentrue]
            · -- first event for k in this query term: additive over the running score
              have hseenfalse : seen = false := by
                cases seen with
                | false => rfl
                | true => exact absurd (hseen.mp rfl) hv
              have hF : processPosting flds k1 b idf eb (sc, vis) p
                  = (setScore sc k (prev + postingScore flds k1 b idf eb p),
                     insertVisited vis k) := by
                simp [processPosting, hrem, hs, hdk, hg, hv]
              rw [hF]
              obtain ⟨ih1, ih2, ih3⟩ := ih
                (setScore sc k (prev + postingScore flds k1 b idf eb p))
                (insertVisited vis k) true
                (by simpa using hvismem)
                (fun _ => ⟨_, getScore_setScore_self sc k _⟩)
              refine ⟨?_, ?_, fun _ => ih3 (by simp)⟩
              · rw [ih1, getScore_setScore_self, hseenfalse, applyEvents_cons_false]
                simp
              · rw [ih2]
                simp
          | none =>
            -- no running score yet: the event is recorded as-is
            have hseenfalse : seen = false := by
              cases seen with
              | false => rfl
              | true =>
                rcases hinv rfl with ⟨v, hv⟩
                rw [hg] at hv
                cases hv
            have hF : processPosting flds k1 b idf eb (sc, vis) p
                = (setScore sc k (postingScore flds k1 b idf eb p), insertVisited vis k) := by
              simp [processPosting, hrem, hs, hdk, hg]
            rw [hF]
            obtain ⟨ih1, ih2, ih3⟩ := ih
              (setScore sc k (postingScore flds k1 b idf eb p))
              (insertVisited vis k) true
              (by simpa using hvismem)
              (fun _ => ⟨_, getScore_setScore_self sc k _⟩)
            refine ⟨?_, ?_, fun _ => ih3 (by simp)⟩
            · rw [ih1, getScore_setScore_self, hseenfalse, applyEvents_cons_false]
              simp
            · rw [ih2]
              simp
        · -- the posting scores a different document: k is framed
          have hevs : postingEvents flds k1 b idf eb k (p :: ps)
              = postingEvents flds k1 b idf eb k ps := by
            rw [postingEvents, List.filterMap_cons]
            simp [hrem, hs, hdk, postingEvents]
          rw [hevs]
          have hvis' : (k ∈ insertVisited vis p.details.docId) ↔ k ∈ vis := by
            rw [mem_insertVisited]
            constructor
            · rintro (rfl | hk)
              · exact absurd rfl hdk
              · exact hk
            · exact Or.inr
          have hF : ∃ v', processPosting flds k1 b idf eb (sc, vis) p
              = (setScore sc p.details.docId v', insertVisited vis p.details.docId) := by
            cases hg : getScore sc p.details.docId with
            | some prev =>
              by_cases hv : p.details.docId ∈ vis
              · exact ⟨max prev (postingScore flds k1 b idf eb p),
                  by simp [processPosting, hrem, hs, hg, hv]⟩
              · exact ⟨prev + postingScore flds k1 b idf eb p,
                  by simp [processPosting, hrem, hs, hg, hv]⟩
            | none =>
              exact ⟨postingScore flds k1 b idf eb p, by simp [processPosting, hrem, hs, hg]⟩
          obtain ⟨v', hF⟩ := hF
          rw [hF]
          have hne : p.details.docId ≠ k := hdk
          obtain ⟨ih1, ih2, ih3⟩ := ih (setScore sc p.details.docId v')
            (insertVisited vis p.details.docId) seen
            (by rw [hseen, hvis'])
            (fun hst => by
              rw [getScore_setScore_ne _ _ _ _ hne]
              exact hinv hst)
          refine ⟨?_, ih2, ih3⟩
          rw [ih1, getScore_setScore_ne _ _ _ _ hne]
      · -- non-positive score: no event, no state change
        have hevs : postingEvents flds k1 b idf eb k (p :: ps)
            = postingEvents flds k1 b idf eb k ps := by
          rw [postingEvents, List.filterMap_cons]
          simp [hrem, hs, postingEvents]
        have hF : processPosting flds k1 b idf eb (sc, vis) p = (sc, vis) := by
          simp [processPosting, hrem, hs]
        rw [hevs, hF]
        exact ih sc vis seen hseen hinv

theorem isEmpty_append_eq {α : Type _} (a b : List α) :
    (a ++ b).isEmpty = (a.isEmpty && b.isEmpty) := by
  cases a with
  | nil => simp
  | cons x xs => simp

theorem or_not_isEmpty_append (seen : Bool) {α : Type _} (a b : List α) :
    (seen || !(a ++ b).isEmpty) = ((seen || !a.isEmpty) || !b.isEmpty) := by
  rw [isEmpty_append_eq]
  cases seen <;> cases a.isEmpty <;> cases b.isEmpty <;> decide

theorem processExpansion_eventChain [DecidableEq I] (jsLog : ℚ → ℚ)
    (st : DocumentIndexState I D) (term : List Nat) (k : I) (eTerm : List Nat)
    (sc : Scores I) (vis : List I) (seen : Bool)
    (hseen : seen = true ↔ k ∈ vis) (hinv : seen = true → ∃ v, getScore sc k = some v) :
    getScore ((processExpansion jsLog st term (sc, vis) eTerm)).1 k
        = applyEvents (getScore sc k) seen (expansionEvents jsLog st term k eTerm) ∧
    ((k ∈ (processExpansion jsLog st term (sc, vis) eTerm).2) ↔
        (seen || !(expansionEvents jsLog st term k eTerm).isEmpty) = true) ∧
    ((seen || !(expansionEvents jsLog st term k eTerm).isEmpty) = true →
        ∃ v, getScore ((processExpansion jsLog st term (sc, vis) eTerm)).1 k = some v) := by
  cases hnd : getNode st.root eTerm with
  | none =>
    have hP : processExpansion jsLog st term (sc, vis) eTerm = (sc, vis) := by
      simp [processExpansion, hnd]
    have hE : expansionEvents jsLog st term k eTerm = [] := by
      simp [expansionEvents, hnd]
    rw [hP, hE]
    exact ⟨rfl, by simpa using hseen.symm, fun h => hinv (by simpa using h)⟩
  | some nd =>
    by_cases hemp : nd.postings.isEmpty
    · have hP : processExpansion jsLog st term (sc, vis) eTerm = (sc, vis) := by
        simp [processExpansion, hnd, hemp]
      have hE : expansionEvents jsLog st term k eTerm = [] := by
        simp [expansionEvents, hnd, hemp]
      rw [hP, hE]
      exact ⟨rfl, by simpa using hseen.symm, fun h => hinv (by simpa using h)⟩
    · by_cases hdf : 0 < (nd.postings.filter (fun p => !p.details.removed)).length
      · have hP : processExpansion jsLog st term (sc, vis) eTerm
            = nd.postings.foldl
              (processPosting st.fields st.bm25k1 st.bm25b
                (jsLog (1 + ((st.documents.length : ℚ)
                    - ((nd.postings.filter (fun p => !p.details.removed)).length : ℚ) + 1 / 2)
                  / (((nd.postings.filter (fun p => !p.details.removed)).length : ℚ) + 1 / 2)))
                (if eTerm = term then 1
                  else jsLog (1 + 1 / (1 + ((eTerm.length : ℚ) - (term.length : ℚ))))))
              (sc, vis) := by
          simp [processExpansion, hnd, hemp, hdf]
        have hE : expansionEvents jsLog st term k eTerm
            = postingEvents st.fields st.bm25k1 st.bm25b
              (jsLog (1 + ((st.documents.length : ℚ)
                  - ((nd.postings.filter (fun p => !p.details.removed)).length : ℚ) + 1 / 2)
                / (((nd.postings.filter (fun p => !p.details.removed)).length : ℚ) + 1 / 2)))
              (if eTerm = term then 1
                else jsLog (1 + 1 / (1 + ((eTerm.length : ℚ) - (term.length : ℚ)))))
              k nd.postings := by
          simp [expansionEvents, hnd, hemp, hdf]
        rw [hP, hE]
        exact processPostingList_eventChain _ _ _ _ _ _ nd.postings sc vis seen hseen hinv
      · have hP : processExpansion jsLog st term (sc, vis) eTerm = (sc, vis) := by
          simp [processExpansion, hnd, hemp, hdf]
        have hE : expansionEvents jsLog st term k eTerm = [] := by
          simp [expansionEvents, hnd, hemp, hdf]
        rw [hP, hE]
        exact ⟨rfl, by simpa using hseen.symm, fun h => hinv (by simpa using h)⟩

theorem processExpansionList_eventChain [DecidableEq I] (jsLog : ℚ → ℚ)
    (st : DocumentIndexState I D) (term : List Nat) (k : I) :
    ∀ (es : List (List Nat)) (sc : Scores I) (vis : List I) (seen : Bool),
    (seen = true ↔ k ∈ vis) → (seen = true → ∃ v, getScore sc k = some v) →
    getScore ((es.foldl (processExpansion jsLog st term) (sc, vis)).1) k
        = applyEvents (getScore sc k) seen
            (es.flatMap (expansionEvents jsLog st term k)) ∧
    ((k ∈ (es.foldl (processExpansion jsLog st term) (sc, vis)).2) ↔
        (seen || !(es.flatMap (expansionEvents jsLog st term k)).isEmpty) = true) ∧
    ((seen || !(es.flatMap (expansionEvents jsLog st term k)).isEmpty) = true →
        ∃ v, getScore ((es.foldl (processExpansion jsLog st term) (sc, vis)).1) k = some v) := by
  intro es
  induction es with
  | nil =>
    intro sc vis seen hseen hinv
    refine ⟨by simp [applyEvents], ?_, ?_⟩
    · simpa using hseen.symm
    · intro h
      exact hinv (by simpa using h)
  | cons e es ih =>
    intro sc vis seen hseen hinv
    rw [List.foldl_cons]
    obtain ⟨he1, he2, he3⟩ :=
      processExpansion_eventChain jsLog st term k e sc vis seen hseen hinv
    have hpair : processExpansion jsLog st term (sc, vis) e
        = ((processExpansion jsLog st term (sc, vis) e).1,
           (processExpansion jsLog st term (sc, vis) e).2) := rfl
    obtain ⟨ih1, ih2, ih3⟩ := ih (processExpansion jsLog st term (sc, vis) e).1
      (processExpansion jsLog st term (sc, vis) e).2
      (seen || !(expansionEvents jsLog st term k e).isEmpty)
      he2.symm he3
    rw [← hpair] at ih1 ih2 ih3
    have hflat : (e :: es).flatMap (expansionEvents jsLog st term k)
        = expansionEvents jsLog st term k e
          ++ es.flatMap (expansionEvents jsLog st term k) := by
      simp
    rw [hflat]
    refine ⟨?_, ?_, ?_⟩
    · rw [ih1, he1, applyEvents_append]
    · rw [or_not_isEmpty_append]
      exact ih2
    · rw [or_not_isEmpty_append]
      exact ih3

/-- C2.  For one query term, the score map update of `search` follows the
first-add-then-max policy: writing `evs` for the list of positive scores the
term's expansions yield for document `k` (in expansion order), the term
leaves `scores[k]` alone when `evs` is empty, and otherwise sets it to
`max(scores[k] + s₁, s₂, …, sₙ)` — the first expansion seen for `k`
contributes additively to the running score (an absent entry counting as
`0`, so contributions of distinct query terms sum), and every later
expansion of the same query term only raises the entry to its own score,
never stacking additively. -/
theorem query_term_score_combination [DecidableEq I] (jsLog : ℚ → ℚ)
    (st : DocumentIndexState I D) (sc : Scores I) (term : List Nat) (k : I) :
    getScore (processQueryTerm jsLog st sc term) k
      = maxChain (getScore sc k) (queryTermEvents jsLog st term k) := by
  unfold processQueryTerm queryTermEvents
  obtain ⟨h1, _, _⟩ := processExpansionList_eventChain jsLog st term k
    (expandTermL st.root term) sc [] false (by simp) (by simp)
  rw [h1, applyEvents_false_eq_maxChain]

/-! ## Vacuum commutes with search -/

theorem vacuumL_node (k : Nat) (ps : List (DocumentPointer I)) (cs : List (TrieL I)) :
    vacuumL (.node k ps cs)
      = .node k (ps.filter (fun p => !p.details.removed)) (cs.map vacuumL) := by
  rw [vacuumL]
  simp

theorem expandTermGo_node (k : Nat) (ps : List (DocumentPointer I)) (cs : List (TrieL I))
    (term : List Nat) :
    expandTermGo (.node k ps cs) term
      = (if ps.isEmpty then [] else [term]) ++
          cs.flatMap (fun c => expandTermGo c (term ++ [c.charCode])) := by
  rw [expandTermGo]
  simp

theorem vacuumL_charCode (t : TrieL I) : (vacuumL t).charCode = t.charCode := by
  cases t with
  | node k ps cs => rw [vacuumL_node]; rfl

theorem vacuumL_postings (t : TrieL I) :
    (vacuumL t).postings = t.postings.filter (fun p => !p.details.removed) := by
  cases t with
  | node k ps cs => rw [vacuumL_node]; rfl

theorem vacuumL_children (t : TrieL I) : (vacuumL t).children = t.children.map vacuumL := by
  cases t with
  | node k ps cs => rw [vacuumL_node]; rfl

theorem findChild_map_vacuumL (cs : List (TrieL I)) (c : Nat) :
    findChild (cs.map vacuumL) c = (findChild cs c).map vacuumL := by
  induction cs with
  | nil => simp [findChild]
  | cons ch rest ih =>
    unfold findChild at ih ⊢
    rw [List.map_cons, List.find?_cons, List.find?_cons, vacuumL_charCode]
    cases hc : (decide (ch.charCode = c)) with
    | true => simp
    | false => simpa using ih

theorem getNode_vacuumL (t : TrieL I) (e : List Nat) :
    getNode (vacuumL t) e = (getNode t e).map vacuumL := by
  induction e generalizing t with
  | nil => simp [getNode]
  | cons c rest ih =>
    rw [getNode, getNode, vacuumL_children, findChild_map_vacuumL]
    cases hfc : findChild t.children c with
    | none => simp
    | some ch => simpa using ih ch

/-- Well-formed trie: at every node the children's char codes are pairwise
distinct.  Every trie produced by sequences of `add`/`remove`/`vacuum` is
well-formed; the hypothesis rules out degenerate sibling shadowing that the
source cannot build. -/
def wfTrie : TrieL I → Prop
  | .node _ _ cs => (cs.map TrieL.charCode).Nodup ∧ ∀ c ∈ cs.attach, wfTrie c.1
termination_by t => sizeOf t
decreasing_by exact TrieL.sizeOf_mem_children c.2

theorem wfTrie_node (k : Nat) (ps : List (DocumentPointer I)) (cs : List (TrieL I)) :
    wfTrie (.node k ps cs) ↔ (cs.map TrieL.charCode).Nodup ∧ ∀ c ∈ cs, wfTrie c := by
  rw [wfTrie]
  simp

theorem wfTrie_getNode {t : TrieL I} {e : List Nat} {nd : TrieL I}
    (hwf : wfTrie t) (h : getNode t e = some nd) : wfTrie nd := by
  induction e generalizing t with
  | nil =>
    simp only [getNode, Option.some_inj] at h
    exact h ▸ hwf
  | cons c rest ih =>
    rw [getNode] at h
    cases hfc : findChild t.children c with
    | none => rw [hfc] at h; cases h
    | some ch =>
      rw [hfc] at h
      refine ih ?_ h
      cases t with
      | node k ps cs =>
        exact ((wfTrie_node k ps cs).mp hwf).2 ch (findChild_mem hfc)

theorem findChild_of_nodup_mem {cs : List (TrieL I)} {c : TrieL I}
    (hnd : (cs.map TrieL.charCode).Nodup) (hc : c ∈ cs) :
    findChild cs c.charCode = some c := by
  induction cs with
  | nil => cases hc
  | cons ch rest ih =>
    rw [List.map_cons, List.nodup_cons] at hnd
    rcases List.mem_cons.mp hc with rfl | hc'
    · unfold findChild
      rw [List.find?_cons_of_pos _ (by simp)]
    · unfold findChild
      rw [List.find?_cons_of_neg, ← findChild]
      · exact ih hnd.2 hc'
      · simp only [decide_eq_true_eq]
        intro heq
        exact hnd.1 (heq ▸ List.mem_map_of_mem TrieL.charCode hc')

theorem getNode_snoc (t : TrieL I) (pre : List Nat) (c : Nat) :
    getNode t (pre ++ [c])
      = (getNode t pre).bind (fun n => findChild n.children c) := by
  induction pre generalizing t with
  | nil =>
    simp only [List.nil_append, getNode, Option.bind_some]
    cases hfc : findChild t.children c with
    | none => simp [getNode, hfc]
    | some ch => simp [getNode, hfc]
  | cons c0 rest ih =>
    rw [List.cons_append, getNode, getNode]
    cases hfc : findChild t.children c0 with
    | none => simp
    | some ch => simpa using ih ch

theorem foldl_processPosting_filter_live [DecidableEq I] (flds : List (FieldDetails D))
    (k1 b idf eb : ℚ) (ps : List (DocumentPointer I)) :
    ∀ (acc : Scores I × List I),
    (ps.filter (fun p => !p.details.removed)).foldl (processPosting flds k1 b idf eb) acc
      = ps.foldl (processPosting flds k1 b idf eb) acc := by
  induction ps with
  | nil => intro acc; rfl
  | cons p rest ih =>
    intro acc
    by_cases hrem : p.details.removed
    · rw [List.filter_cons_of_neg (by simp [hrem]), List.foldl_cons]
      have hF : processPosting flds k1 b idf eb acc p = acc := by
        simp [processPosting, hrem]
      rw [hF]
      exact ih acc
    · rw [List.filter_cons_of_pos (by simp [hrem]), List.foldl_cons, List.foldl_cons]
      exact ih _

theorem filter_live_idem (ps : List (DocumentPointer I)) :
    (ps.filter (fun p => !p.details.removed)).filter (fun p => !p.details.removed)
      = ps.filter (fun p => !p.details.removed) := by
  rw [List.filter_filter]
  simp

/-- Pointwise: processing any expansion term against the vacuumed index has
exactly the effect of processing it against the original index — vacuum
removes just the postings the scoring loop skips, preserves every node, and
leaves the live document frequency of every node unchanged. -/
theorem processExpansion_vacuum [DecidableEq I] (jsLog : ℚ → ℚ)
    (st : DocumentIndexState I D) (term : List Nat) (acc : Scores I × List I)
    (eTerm : List Nat) :
    processExpansion jsLog (vacuumState st) term acc eTerm
      = processExpansion jsLog st term acc eTerm := by
  unfold processExpansion vacuumState
  simp only [getNode_vacuumL]
  cases hnd : getNode st.root eTerm with
  | none => rfl
  | some nd =>
    simp only [Option.map_some']
    rw [vacuumL_postings]
    by_cases hv : (nd.postings.filter (fun p => !p.details.removed)).isEmpty
    · rw [if_pos hv]
      by_cases hp : nd.postings.isEmpty
      · rw [if_pos hp]
      · rw [if_neg hp]
        have hdf : (nd.postings.filter (fun p => !p.details.removed)).length = 0 := by
          rw [List.isEmpty_iff] at hv
          rw [hv]
          rfl
        rw [hdf]
        simp
    · rw [if_neg hv]
      have hp : ¬nd.postings.isEmpty := by
        intro hp
        rw [List.isEmpty_iff] at hp
        rw [hp] at hv
        simp at hv
      rw [if_neg hp, filter_live_idem]
      have hdf : 0 < (nd.postings.filter (fun p => !p.details.removed)).length := by
        refine List.length_pos.mpr ?_
        intro h
        rw [h] at hv
        simp at hv
      rw [if_pos hdf, if_pos hdf]
      exact foldl_processPosting_filter_live _ _ _ _ _ nd.postings acc

theorem foldl_flatMap_congr {α β γ : Type _} (f : γ → β → γ) (g g' : α → List β)
    (cs : List α) (h : ∀ c ∈ cs, ∀ acc, (g' c).foldl f acc = (g c).foldl f acc) :
    ∀ acc, (cs.flatMap g').foldl f acc = (cs.flatMap g).foldl f acc := by
  induction cs with
  | nil => intro acc; rfl
  | cons c rest ih =>
    intro acc
    rw [List.flatMap_cons, List.flatMap_cons, List.foldl_append, List.foldl_append,
      h c (List.mem_cons_self _ _) acc]
    exact ih (fun c' hc' => h c' (List.mem_cons_of_mem _ hc')) _

/-- The fold of the expansion processor over the expansions of a vacuumed
subtree equals the fold over the expansions of the original subtree: the
expansions missing after vacuum are exactly those whose node lost all its
postings, and processing those was already a no-op. -/
theorem foldl_expandTermGo_vacuum [DecidableEq I] (jsLog : ℚ → ℚ)
    (st : DocumentIndexState I D) (term : List Nat) (hwf : wfTrie st.root) :
    ∀ (n : TrieL I) (pre : List Nat), getNode st.root pre = some n →
    ∀ (acc : Scores I × List I),
    (expandTermGo (vacuumL n) pre).foldl (processExpansion jsLog st term) acc
      = (expandTermGo n pre).foldl (processExpansion jsLog st term) acc := by
  intro n
  induction n using TrieL.inductionOn with
  | _ k ps cs ih =>
    intro pre hpre acc
    rw [vacuumL_node, expandTermGo_node, expandTermGo_node, List.foldl_append,
      List.foldl_append]
    have hchild : ((cs.map vacuumL).flatMap
          (fun c => expandTermGo c (pre ++ [c.charCode])))
        = cs.flatMap (fun c => expandTermGo (vacuumL c) (pre ++ [c.charCode])) := by
      rw [List.flatMap_map]
      refine List.flatMap_congr ?_
      intro c _
      show expandTermGo (vacuumL c) (pre ++ [(vacuumL c).charCode])
        = expandTermGo (vacuumL c) (pre ++ [c.charCode])
      rw [vacuumL_charCode]
    have hhead : ∀ (acc0 : Scores I × List I),
        ((if (ps.filter (fun p => !p.details.removed)).isEmpty then [] else [pre]).foldl
          (processExpansion jsLog st term) acc0)
        = ((if ps.isEmpty then [] else [pre]).foldl (processExpansion jsLog st term) acc0) := by
      intro acc0
      by_cases hp : ps.isEmpty
      · rw [List.isEmpty_iff] at hp
        subst hp
        rfl
      · rw [if_neg hp]
        by_cases hv : (ps.filter (fun p => !p.details.removed)).isEmpty
        · rw [if_pos hv, List.foldl_nil, List.foldl_cons, List.foldl_nil]
          have hdf : (ps.filter (fun p => !p.details.removed)).length = 0 := by
            rw [List.isEmpty_iff] at hv
            rw [hv]
            rfl
          unfold processExpansion
          rw [hpre]
          simp only [TrieL.postings_node]
          rw [if_neg hp, hdf]
          simp
        · rw [if_neg hv]
    -- the child charCodes at n are distinct, so every child is its own
    -- first match and its subtree is reached by `getNode`
    have hwn : wfTrie (TrieL.node k ps cs) := wfTrie_getNode hwf hpre
    rw [hhead, hchild]
    refine foldl_flatMap_congr _ _ _ cs ?_ _
    intro c hc acc'
    refine ih c hc (pre ++ [c.charCode]) ?_ acc'
    rw [getNode_snoc, hpre, Option.some_bind]
    simp only [TrieL.children_node]
    exact findChild_of_nodup_mem ((wfTrie_node k ps cs).mp hwn).1 hc

theorem processQueryTerm_vacuum [DecidableEq I] (jsLog : ℚ → ℚ)
    (st : DocumentIndexState I D) (hwf : wfTrie st.root) (sc : Scores I) (term : List Nat) :
    processQueryTerm jsLog (vacuumState st) sc term = processQueryTerm jsLog st sc term := by
  unfold processQueryTerm
  have hstep : ∀ (es : List (List Nat)) (acc : Scores I × List I),
      es.foldl (processExpansion jsLog (vacuumState st) term) acc
        = es.foldl (processExpansion jsLog st term) acc := by
    intro es
    induction es with
    | nil => intro acc; rfl
    | cons e rest ihe =>
      intro acc
      rw [List.foldl_cons, List.foldl_cons, processExpansion_vacuum]
      exact ihe _
  rw [hstep]
  have hroot : (vacuumState st).root = vacuumL st.root := rfl
  rw [hroot]
  unfold expandTermL
  rw [getNode_vacuumL]
  cases hn : getNode st.root term with
  | none => rfl
  | some n =>
    simp only [Option.map_some']
    rw [foldl_expandTermGo_vacuum jsLog st term hwf n term hn]

theorem searchScores_vacuum [DecidableEq I] (jsLog : ℚ → ℚ)
    (st : DocumentIndexState I D) (hwf : wfTrie st.root) (q : List Nat) :
    searchScores jsLog (vacuumState st) q = searchScores jsLog st q := by
  unfold searchScores
  have htok : (vacuumState st).tokenizer = st.tokenizer := rfl
  rw [htok]
  generalize st.tokenizer q = toks
  suffices hgen : ∀ (toks : List (List Nat)) (sc : Scores I),
      toks.foldl
        (fun sc tok =>
          let term := (vacuumState st).filter tok
          if term.isEmpty then sc else processQueryTerm jsLog (vacuumState st) sc term) sc
        = toks.foldl
        (fun sc tok =>
          let term := st.filter tok
          if term.isEmpty then sc else processQueryTerm jsLog st sc term) sc from
    hgen toks []
  intro toks
  induction toks with
  | nil => intro sc; rfl
  | cons tok rest ih =>
    intro sc
    rw [List.foldl_cons, List.foldl_cons]
    have hfil : (vacuumState st).filter = st.filter := rfl
    by_cases he : (st.filter tok).isEmpty
    · simp only [hfil, he, if_true]
      exact ih sc
    · simp only [hfil, he, if_false, Bool.false_eq_true]
      rw [processQueryTerm_vacuum jsLog st hwf]
      exact ih _

/-- C8.  For every index state whose trie is well-formed (as every state
reachable by insertions and removals is) and every query, running `vacuum()`
and then searching returns exactly the same ordered result list as searching
the un-vacuumed index: vacuum removes only postings the scoring loop skips
anyway, preserves every node and its live document frequency, and does not
touch the registry or field statistics. -/
theorem vacuum_preserves_search [DecidableEq I] (jsLog : ℚ → ℚ)
    (st : DocumentIndexState I D) (q : List Nat) (hwf : wfTrie st.root) :
    search jsLog (vacuumState st) q = search jsLog st q := by
  unfold search
  rw [searchScores_vacuum jsLog st hwf]

/-- Witness for the vacuum/search commutation at the concrete state
`wState`. -/
theorem vacuum_preserves_search_witness :
    wfTrie wState.root ∧
    search id (vacuumState wState) [7] = search id wState [7] := by
  have hw : wfTrie wState.root := by
    have hroot : wState.root = TrieL.node 0 [] [wNode] := rfl
    rw [hroot, wfTrie_node]
    refine ⟨by simp, ?_⟩
    intro c hc
    rw [List.mem_singleton] at hc
    subst hc
    rw [wNode, wfTrie_node]
    simp
  exact ⟨hw, vacuum_preserves_search id wState [7] hw⟩

/-! ## Serialization round trip -/

/-- The serialized index state (`SerializedState`): the registry spread into
an entry array (`[..._documents]`), the trie root, the field records, the
injected functions captured by the spread, and the BM25 constants. -/
structure SerializedState (I D : Type) where
  documentsArr : List (I × DocumentDetails I)
  root : TrieL I
  fields : List (FieldDetails D)
  tokenizer : List Nat → List (List Nat)
  filter : List Nat → List Nat
  bm25k1 : ℚ
  bm25b : ℚ

/-- `DeserializeOptions`: the optionally re-supplied tokenizer, filter and
per-field-name accessors. -/
structure DeserializeOptions (I D : Type) where
  tokenizer : Option (List Nat → List (List Nat))
  filter : Option (List Nat → List Nat)
  fieldsGetters : Option (List (List Nat × (D → Option (List Nat))))

/-- `serialize(index, serializer)`: capture the index state into a
`SerializedState` and hand it to the injected serializer. -/
def serializeIndex {B : Type} (st : DocumentIndexState I D)
    (serializer : SerializedState I D → B) : B :=
  serializer
    { documentsArr := st.documents
      root := st.root
      fields := st.fields
      tokenizer := st.tokenizer
      filter := st.filter
      bm25k1 := st.bm25k1
      bm25b := st.bm25b }

/-- The `fieldsGetters` pass of `deserialize`: for every field whose name
appears among the supplied getters, replace the field's getter. -/
def applyFieldsGetters (fields : List (FieldDetails D))
    (gs : List (List Nat × (D → Option (List Nat)))) : List (FieldDetails D) :=
  fields.map (fun f =>
    match (gs.find? (fun e => e.1 = f.name)).map (·.2) with
    | some g => { f with getter := g }
    | none => f)

/-- `deserialize(serializedIndex, deserializer, options)`: decode the state,
restore the registry (`new Map(entries)`), the trie root, the fields and the
BM25 constants; the tokenizer and filter are NOT restored from the state —
they are the constructor defaults unless re-supplied in the options — and
the optional `fieldsGetters` replace matching fields' accessors. -/
def deserializeIndex {B : Type} (b : B) (deserializer : B → SerializedState I D)
    (defaultTokenizer : List Nat → List (List Nat)) (defaultFilter : List Nat → List Nat)
    (opts : DeserializeOptions I D) : DocumentIndexState I D :=
  let s := deserializer b
  { documents := s.documentsArr
    root := s.root
    fields :=
      match opts.fieldsGetters with
      | none => s.fields
      | some gs => applyFieldsGetters s.fields gs
    tokenizer := opts.tokenizer.getD defaultTokenizer
    filter := opts.filter.getD defaultFilter
    bm25k1 := s.bm25k1
    bm25b := s.bm25b }

theorem getD_of_le {α : Type _} (l : List α) (i : Nat) (h : l.length ≤ i) (d : α) :
    l.getD i d = d := by
  rw [List.getD_eq_getElem?_getD, List.getElem?_eq_none h]
  rfl

theorem applyFieldsGetters_boost (fields : List (FieldDetails D))
    (gs : List (List Nat × (D → Option (List Nat)))) (i : Nat) :
    ((applyFieldsGetters fields gs).getD i (emptyField D)).boost
      = (fields.getD i (emptyField D)).boost ∧
    ((applyFieldsGetters fields gs).getD i (emptyField D)).avgLength
      = (fields.getD i (emptyField D)).avgLength := by
  by_cases hi : i < fields.length
  · unfold applyFieldsGetters
    rw [getD_map_of_lt _ _ i hi _ (emptyField D)]
    cases (gs.find? (fun e => e.1 = (fields.getD i (emptyField D)).name)).map (·.2) with
    | none => exact ⟨rfl, rfl⟩
    | some g => exact ⟨rfl, rfl⟩
  · have hlen : (applyFieldsGetters fields gs).length = fields.length := by
      unfold applyFieldsGetters
      rw [List.length_map]
    rw [getD_of_le (applyFieldsGetters fields gs) _ (by rw [hlen]; omega) _,
      getD_of_le fields _ (by omega) _]
    exact ⟨rfl, rfl⟩

theorem foldl_funext {α β : Type _} {f g : β → α → β} (h : ∀ acc x, f acc x = g acc x) :
    ∀ (l : List α) (acc : β), l.foldl f acc = l.foldl g acc := by
  intro l
  induction l with
  | nil => intro acc; rfl
  | cons x rest ih =>
    intro acc
    rw [List.foldl_cons, List.foldl_cons, h]
    exact ih _

theorem postingScore_fields_proj (flds' flds : List (FieldDetails D))
    (hproj : ∀ i, ((flds'.getD i (emptyField D)).boost = (flds.getD i (emptyField D)).boost ∧
      (flds'.getD i (emptyField D)).avgLength = (flds.getD i (emptyField D)).avgLength))
    (k1 b idf eb : ℚ) (p : DocumentPointer I) :
    postingScore flds' k1 b idf eb p = postingScore flds k1 b idf eb p := by
  unfold postingScore
  refine foldl_funext ?_ _ _
  intro acc x
  by_cases hx : 0 < p.termFrequency.getD x 0
  · simp only [hx, if_true, (hproj x).1, (hproj x).2]
  · simp only [hx, if_false]

theorem processPosting_fields_proj [DecidableEq I] (flds' flds : List (FieldDetails D))
    (hproj : ∀ i, ((flds'.getD i (emptyField D)).boost = (flds.getD i (emptyField D)).boost ∧
      (flds'.getD i (emptyField D)).avgLength = (flds.getD i (emptyField D)).avgLength))
    (k1 b idf eb : ℚ) (acc : Scores I × List I) (p : DocumentPointer I) :
    processPosting flds' k1 b idf eb acc p = processPosting flds k1 b idf eb acc p := by
  unfold processPosting
  rw [postingScore_fields_proj flds' flds hproj]

theorem processExpansion_fields_proj [DecidableEq I] (jsLog : ℚ → ℚ)
    (st : DocumentIndexState I D) (flds' : List (FieldDetails D))
    (hproj : ∀ i,
      ((flds'.getD i (emptyField D)).boost = (st.fields.getD i (emptyField D)).boost ∧
      (flds'.getD i (emptyField D)).avgLength
        = (st.fields.getD i (emptyField D)).avgLength))
    (term : List Nat) (acc : Scores I × List I) (e : List Nat) :
    processExpansion jsLog { st with fields := flds' } term acc e
      = processExpansion jsLog st term acc e := by
  unfold processExpansion
  cases hnd : getNode st.root e with
  | none => rfl
  | some nd =>
    simp only
    by_cases hemp : nd.postings.isEmpty
    · simp [hemp]
    · simp only [hemp, if_false, Bool.false_eq_true]
      by_cases hdf : 0 < (nd.postings.filter (fun p => !p.details.removed)).length
      · simp only [hdf, if_true]
        exact foldl_funext (processPosting_fields_proj flds' st.fields hproj _ _ _ _)
          nd.postings acc
      · simp [hdf]

theorem processQueryTerm_fields_proj [DecidableEq I] (jsLog : ℚ → ℚ)
    (st : DocumentIndexState I D) (flds' : List (FieldDetails D))
    (hproj : ∀ i,
      ((flds'.getD i (emptyField D)).boost = (st.fields.getD i (emptyField D)).boost ∧
      (flds'.getD i (emptyField D)).avgLength
        = (st.fields.getD i (emptyField D)).avgLength))
    (sc : Scores I) (term : List Nat) :
    processQueryTerm jsLog { st with fields := flds' } sc term
      = processQueryTerm jsLog st sc term := by
  unfold processQueryTerm
  congr 1
  exact foldl_funext (processExpansion_fields_proj jsLog st flds' hproj term)
    (expandTermL st.root term) (sc, [])

theorem searchScores_fields_proj [DecidableEq I] (jsLog : ℚ → ℚ)
    (st : DocumentIndexState I D) (flds' : List (FieldDetails D))
    (hproj : ∀ i,
      ((flds'.getD i (emptyField D)).boost = (st.fields.getD i (emptyField D)).boost ∧
      (flds'.getD i (emptyField D)).avgLength
        = (st.fields.getD i (emptyField D)).avgLength))
    (q : List Nat) :
    searchScores jsLog { st with fields := flds' } q = searchScores jsLog st q := by
  unfold searchScores
  refine foldl_funext ?_ _ _
  intro sc tok
  by_cases he : (st.filter tok).isEmpty
  · simp only [he, if_true]
  · simp only [he, if_false, Bool.false_eq_true]
    exact processQueryTerm_fields_proj jsLog st flds' hproj sc (st.filter tok)

set_option maxHeartbeats 1000000 in
theorem serialize_roundtrip_preserves_results [DecidableEq I] (jsLog : ℚ → ℚ)
    {B : Type} (st : DocumentIndexState I D)
    (serializer : SerializedState I D → B) (deserializer : B → SerializedState I D)
    (defaultTokenizer : List Nat → List (List Nat)) (defaultFilter : List Nat → List Nat)
    (opts : DeserializeOptions I D)
    (hcodec : ∀ x, deserializer (serializer x) = x)
    (htok : opts.tokenizer = some st.tokenizer)
    (hfil : opts.filter = some st.filter)
    (q t : List Nat) :
    search jsLog
        (deserializeIndex (serializeIndex st serializer) deserializer
          defaultTokenizer defaultFilter opts) q
      = search jsLog st q ∧
    expandTermL
        (deserializeIndex (serializeIndex st serializer) deserializer
          defaultTokenizer defaultFilter opts).root t
      = expandTermL st.root t := by
  unfold deserializeIndex serializeIndex
  rw [hcodec]
  simp only [htok, hfil, Option.getD_some]
  cases hgs : opts.fieldsGetters with
  | none => exact ⟨rfl, trivial⟩
  | some gs =>
    refine ⟨?_, ?_⟩
    · unfold search
      congr 1
      exact searchScores_fields_proj jsLog st (applyFieldsGetters st.fields gs)
        (fun i => applyFieldsGetters_boost st.fields gs i) q
    · trivial

/-- Witness for the serialization round trip at the concrete state `wState`,
with the identity codec and the state's own tokenizer and filter
re-supplied. -/
theorem serialize_roundtrip_preserves_results_witness :
    search id
        (deserializeIndex (serializeIndex wState (fun x => x)) (fun x => x)
          wState.tokenizer wState.filter
          ⟨some wState.tokenizer, some wState.filter, none⟩) [7]
      = search id wState [7] ∧
    expandTermL
        (deserializeIndex (serializeIndex wState (fun x => x)) (fun x => x)
          wState.tokenizer wState.filter
          ⟨some wState.tokenizer, some wState.filter, none⟩).root [7]
      = expandTermL wState.root [7] :=
  serialize_roundtrip_preserves_results id wState (fun x => x) (fun x => x)
    wState.tokenizer wState.filter ⟨some wState.tokenizer, some wState.filter, none⟩
    (fun _ => rfl) rfl rfl [7] [7]

/-! ## The field-length sum invariant over operation sequences -/

/-- A public mutating operation of the document index. -/
inductive IndexOp (I D : Type) where
  | addDoc (id : I) (doc : D)
  | removeDoc (id : I)
  | vacuum

/-- Apply a public operation to the index state. -/
def applyOp [DecidableEq I] (st : DocumentIndexState I D) : IndexOp I D → DocumentIndexState I D
  | .addDoc id doc => addDocument st id doc
  | .removeDoc id => removeDocument st id
  | .vacuum => vacuumState st

/-- Run a sequence of public operations in program order. -/
def runOps [DecidableEq I] (st : DocumentIndexState I D) (ops : List (IndexOp I D)) :
    DocumentIndexState I D :=
  ops.foldl applyOp st

/-- A sequence is valid when every insertion uses a key that is not live at
that point (the unique-keys discipline the engine requires of callers). -/
def validOps [DecidableEq I] (st : DocumentIndexState I D) : List (IndexOp I D) → Bool
  | [] => true
  | op :: rest =>
    (match op with
      | .addDoc id _ => decide (lookupDocument st.documents id = none)
      | _ => true) && validOps (applyOp st op) rest

/-- The registry keys are pairwise distinct (a `Map` invariant). -/
def keysNodup (st : DocumentIndexState I D) : Prop :=
  (st.documents.map (·.1)).Nodup

/-- The claimed invariant: every field's running `sumLength` is the sum of
that field's recorded lengths over the currently-live documents. -/
def sumLenInv (st : DocumentIndexState I D) : Prop :=
  ∀ i, i < st.fields.length →
    (st.fields.getD i (emptyField D)).sumLength
      = (st.documents.map (fun e => (e.2.fieldLengths.getD i 0 : ℚ))).sum

theorem lookupDocument_eq_none_iff [DecidableEq I] (docs : List (I × DocumentDetails I))
    (id : I) : lookupDocument docs id = none ↔ id ∉ docs.map (·.1) := by
  induction docs with
  | nil => simp [lookupDocument]
  | cons e rest ih =>
    by_cases h : e.1 = id
    · rw [lookupDocument, List.find?_cons_of_pos _ (by simp [h])]
      simp [h]
    · rw [lookupDocument, List.find?_cons_of_neg _ (by simp [h])]
      rw [← lookupDocument, List.map_cons, List.mem_cons]
      rw [ih]
      constructor
      · intro hn hor
        rcases hor with hor | hor
        · exact h hor.symm
        · exact hn hor
      · intro hn
        exact fun hm => hn (Or.inr hm)

theorem setDocument_fresh [DecidableEq I] (docs : List (I × DocumentDetails I)) (id : I)
    (d : DocumentDetails I) (hfresh : lookupDocument docs id = none) :
    setDocument docs id d = docs ++ [(id, d)] := by
  induction docs with
  | nil => rfl
  | cons e rest ih =>
    have h : ¬e.1 = id := by
      intro h
      rw [lookupDocument, List.find?_cons_of_pos _ (by simp [h])] at hfresh
      cases hfresh
    rw [setDocument, if_neg h, List.cons_append]
    congr 1
    refine ih ?_
    rw [lookupDocument, List.find?_cons_of_neg _ (by simp [h])] at hfresh
    exact hfresh

theorem eraseDocument_decomp [DecidableEq I] (docs : List (I × DocumentDetails I)) (id : I)
    (d : DocumentDetails I) (hfound : lookupDocument docs id = some d) :
    ∃ l1 l2, docs = l1 ++ (id, d) :: l2 ∧ eraseDocument docs id = l1 ++ l2 := by
  induction docs with
  | nil => simp [lookupDocument] at hfound
  | cons e rest ih =>
    by_cases h : e.1 = id
    · rw [lookupDocument, List.find?_cons_of_pos _ (by simp [h])] at hfound
      simp only [Option.map_some', Option.some_inj] at hfound
      refine ⟨[], rest, ?_, ?_⟩
      · simp only [List.nil_append]
        congr 1
        rw [← h, ← hfound]
      · rw [eraseDocument, if_pos h]
        rfl
    · rw [lookupDocument, List.find?_cons_of_neg _ (by simp [h])] at hfound
      rcases ih hfound with ⟨l1, l2, hsplit, herase⟩
      refine ⟨e :: l1, l2, ?_, ?_⟩
      · rw [List.cons_append, hsplit]
      · rw [eraseDocument, if_neg h, herase]
        rfl

theorem mapWithIndex_length {α β : Type _} (f : Nat → α → β) (l : List α) :
    ∀ j, (mapWithIndex f l j).length = l.length := by
  induction l with
  | nil => intro j; rfl
  | cons a rest ih =>
    intro j
    rw [mapWithIndex, List.length_cons, List.length_cons, ih]

theorem add_preserves_sumLenInv [DecidableEq I] (st : DocumentIndexState I D) (id : I)
    (doc : D) (hfresh : lookupDocument st.documents id = none)
    (hnd : keysNodup st) (hinv : sumLenInv st) :
    keysNodup (addDocument st id doc) ∧ sumLenInv (addDocument st id doc) := by
  have hfields : (addDocument st id doc).fields
      = st.fields.map (fieldTransform st.tokenizer st.filter doc st.documents.length) := by
    unfold addDocument
    simp [indexFields_fields]
  have hdocs : (addDocument st id doc).documents
      = st.documents ++
        [(id, { docId := id, removed := false,
                fieldLengths := st.fields.map (fieldLengthOf st.tokenizer st.filter doc) })] := by
    unfold addDocument
    simp only [indexFields_lengths]
    exact setDocument_fresh st.documents id _ hfresh
  constructor
  · unfold keysNodup
    rw [hdocs, List.map_append]
    rw [List.nodup_append]
    refine ⟨hnd, by simp, ?_⟩
    intro a ha hb
    simp only [List.map_cons, List.map_nil, List.mem_singleton] at hb
    rw [hb] at ha
    exact (lookupDocument_eq_none_iff st.documents id).mp hfresh ha
  · intro i hi
    have hlen : i < st.fields.length := by
      rw [hfields, List.length_map] at hi
      exact hi
    rw [hfields, getD_map_of_lt _ _ i hlen _ (emptyField D), hdocs, List.map_append,
      List.sum_append]
    simp only [List.map_cons, List.map_nil, List.sum_cons, List.sum_nil, add_zero]
    rw [getD_map_of_lt _ _ i hlen _ (emptyField D)]
    unfold fieldTransform fieldLengthOf
    cases hg : (st.fields.getD i (emptyField D)).getter doc with
    | none =>
      simp only
      rw [hinv i hlen]
      simp
    | some text =>
      simp only
      rw [hinv i hlen]

theorem remove_preserves_sumLenInv [DecidableEq I] (st : DocumentIndexState I D) (id : I)
    (hnd : keysNodup st) (hinv : sumLenInv st) :
    keysNodup (removeDocument st id) ∧ sumLenInv (removeDocument st id) := by
  unfold removeDocument
  cases hfound : lookupDocument st.documents id with
  | none => exact ⟨hnd, hinv⟩
  | some d =>
    simp only
    rcases eraseDocument_decomp st.documents id d hfound with ⟨l1, l2, hsplit, herase⟩
    constructor
    · unfold keysNodup
      simp only [herase]
      have hsub : List.Sublist (l1 ++ l2) (l1 ++ (id, d) :: l2) :=
        List.Sublist.append_left (List.sublist_cons_self _ _) l1
      have hmap : List.Sublist ((l1 ++ l2).map (·.1)) ((l1 ++ (id, d) :: l2).map (·.1)) :=
        hsub.map _
      have hnd2 : ((l1 ++ (id, d) :: l2).map (·.1)).Nodup := by
        rw [← hsplit]
        exact hnd
      exact hnd2.sublist hmap
    · intro i hi
      rw [mapWithIndex_length] at hi
      rw [getD_mapWithIndex _ _ 0 i hi, Nat.zero_add]
      simp only
      have hsum : (st.documents.map (fun e => (e.2.fieldLengths.getD i 0 : ℚ))).sum
          = ((l1 ++ l2).map (fun e => (e.2.fieldLengths.getD i 0 : ℚ))).sum
            + (d.fieldLengths.getD i 0 : ℚ) := by
        rw [hsplit, List.map_append, List.map_append, List.sum_append, List.sum_append,
          List.map_cons, List.sum_cons]
        ring
      by_cases hl : 0 < d.fieldLengths.getD i 0
      · rw [if_pos hl]
        simp only [herase]
        rw [hinv i hi, hsum]
        ring
      · rw [if_neg hl]
        have hzero : d.fieldLengths.getD i 0 = 0 := by omega
        simp only [herase]
        rw [hinv i hi, hsum, hzero]
        simp

/-- C6.  For every valid sequence of insertions (fresh keys) and removals —
with any number of interleaved `vacuum()` calls — every field's running
`sumLength` equals the sum of that field's recorded lengths over the
currently-live documents after the sequence runs (and hence after every
public operation, each prefix of a valid sequence being valid). -/
theorem field_sum_invariant [DecidableEq I] :
    ∀ (ops : List (IndexOp I D)) (st : DocumentIndexState I D),
    keysNodup st → sumLenInv st → validOps st ops = true →
    keysNodup (runOps st ops) ∧ sumLenInv (runOps st ops) := by
  intro ops
  induction ops with
  | nil => intro st hnd hinv _; exact ⟨hnd, hinv⟩
  | cons op rest ih =>
    intro st hnd hinv hvalid
    rw [runOps, List.foldl_cons, ← runOps]
    cases op with
    | addDoc id doc =>
      simp only [validOps, Bool.and_eq_true, decide_eq_true_eq] at hvalid
      have hstep := add_preserves_sumLenInv st id doc hvalid.1 hnd hinv
      exact ih _ hstep.1 hstep.2 hvalid.2
    | removeDoc id =>
      simp only [validOps, Bool.true_and] at hvalid
      have hstep := remove_preserves_sumLenInv st id hnd hinv
      exact ih _ hstep.1 hstep.2 hvalid
    | vacuum =>
      simp only [validOps, Bool.true_and] at hvalid
      exact ih _ hnd hinv hvalid

/-- Witness for the field-length sum invariant: two insertions and a removal
followed by a vacuum on a one-field index over `wAddState`'s schema. -/
theorem field_sum_invariant_witness :
    keysNodup wAddState ∧ sumLenInv wAddState ∧
    validOps wAddState
      [.addDoc 5 [3, 0, 4], .removeDoc 1, .vacuum] = true ∧
    sumLenInv (runOps wAddState [.addDoc 5 [3, 0, 4], .removeDoc 1, .vacuum]) := by
  have hnd : keysNodup wAddState := by
    unfold keysNodup wAddState
    simp
  have hinv : sumLenInv wAddState := by
    intro i hi
    unfold wAddState at hi ⊢
    simp only [List.length_cons, List.length_nil] at hi
    interval_cases i
    · norm_num [wAddState]
  have hvalid : validOps wAddState [.addDoc 5 [3, 0, 4], .removeDoc 1, .vacuum] = true := by
    decide
  exact ⟨hnd, hinv, hvalid,
    (field_sum_invariant [.addDoc 5 [3, 0, 4], .removeDoc 1, .vacuum] wAddState
      hnd hinv hvalid).2⟩

/-! ## The pruning vacuum of the array-based index (`part_003`) -/

/-- Trie node of the array-based index variant (`InvertedIndexNode` in
`part_003`): char code `k`, postings array `d` and children array `c`.
`null` arrays are the empty list — the code guards every access with a
`null` check and otherwise only reads length and elements. -/
inductive Trie3 (I : Type) : Type where
  | node (k : Nat) (d : List (DocumentPointer I)) (c : List (Trie3 I))

namespace Trie3

/-- The postings array `d` of a node. -/
def d : Trie3 I → List (DocumentPointer I)
  | .node _ ds _ => ds

/-- The children array `c` of a node. -/
def c : Trie3 I → List (Trie3 I)
  | .node _ _ cs => cs

@[simp] theorem d_node (k : Nat) (ds : List (DocumentPointer I)) (cs : List (Trie3 I)) :
    d (.node k ds cs) = ds := rfl

@[simp] theorem c_node (k : Nat) (ds : List (DocumentPointer I)) (cs : List (Trie3 I)) :
    c (.node k ds cs) = cs := rfl

/-- Size measure used for recursion/induction over the nested inductive. -/
theorem sizeOf_mem_c {t : Trie3 I} {k : Nat} {ds : List (DocumentPointer I)}
    {cs : List (Trie3 I)} (h : t ∈ cs) : sizeOf t < sizeOf (Trie3.node k ds cs) := by
  have h1 : sizeOf t < sizeOf cs := List.sizeOf_lt_of_mem h
  cases cs with
  | nil => cases h
  | cons a l => simp only [Trie3.node.sizeOf_spec]; omega

/-- Structural induction over `Trie3` handing the hypothesis to every child. -/
theorem inductionOn3 {P : Trie3 I → Prop}
    (h : ∀ k ds cs, (∀ t ∈ cs, P t) → P (Trie3.node k ds cs)) : ∀ t, P t
  | .node k ds cs => h k ds cs (fun t ht => inductionOn3 h t)
termination_by t => sizeOf t
decreasing_by exact sizeOf_mem_c ht

end Trie3

/-- The swap-and-pop eviction loop at the head of `_vacuumIndex`: scanning the
postings array from index 0, a pointer to a removed document is overwritten
with the array's last element (`d[i] = d[d.length - 1]`, only when more than
one element remains) and the array is popped (`d.pop()`, i.e. `dropLast`),
without advancing the index (`continue`); a live pointer advances the
index. -/
def evictLoop : Nat → List (DocumentPointer I) → List (DocumentPointer I)
  | i, ds =>
    if hi : i < ds.length then
      if (ds.get ⟨i, hi⟩).details.removed then
        evictLoop i
          ((if 1 < ds.length then ds.set i (ds.get ⟨ds.length - 1, by omega⟩) else ds).dropLast)
      else
        evictLoop (i + 1) ds
    else ds
termination_by i ds => ds.length - i
decreasing_by
  · simp only [List.length_dropLast]
    split
    · simp only [List.length_set]
      omega
    · omega
  · omega

/-- The postings cleanup of `_vacuumIndex`, started at index 0. -/
def evictRemoved (ds : List (DocumentPointer I)) : List (DocumentPointer I) :=
  evictLoop 0 ds

/-- Loop invariant of the swap-and-pop scan: when every posting before the
scan index is live, every posting of the final array is live. -/
theorem evictLoop_all_live (n : Nat) :
    ∀ (i : Nat) (ds : List (DocumentPointer I)), ds.length - i ≤ n →
    (∀ p ∈ ds.take i, p.details.removed = false) →
    ∀ p ∈ evictLoop i ds, p.details.removed = false := by
  induction n with
  | zero =>
    intro i ds hn hpre p hp
    rw [evictLoop, dif_neg (by omega)] at hp
    exact hpre p (by rw [List.take_of_length_le (by omega)]; exact hp)
  | succ n ih =>
    intro i ds hn hpre p hp
    rw [evictLoop] at hp
    by_cases hi : i < ds.length
    · rw [dif_pos hi] at hp
      by_cases hr : (ds.get ⟨i, hi⟩).details.removed
      · rw [if_pos hr] at hp
        set m := (if 1 < ds.length then ds.set i (ds.get ⟨ds.length - 1, by omega⟩) else ds) with hm
        have hmlen : m.length = ds.length := by
          rw [hm]; split
          · rw [List.length_set]
          · rfl
        refine ih i m.dropLast ?_ ?_ p hp
        · rw [List.length_dropLast, hmlen]; omega
        · intro q hq
          have hq2 : q ∈ m.take i := by
            rw [List.dropLast_eq_take, List.take_take] at hq
            have hmin : i ⊓ (m.length - 1) = i := by rw [hmlen]; omega
            rwa [hmin] at hq
          have hq3 : q ∈ ds.take i := by
            rw [hm] at hq2
            rcases lt_or_ge 1 ds.length with h1 | h1
            · rw [if_pos h1, List.set_take,
                List.set_eq_of_length_le (by rw [List.length_take]; omega)] at hq2
              exact hq2
            · rw [if_neg (by omega)] at hq2
              exact hq2
          exact hpre q hq3
      · rw [if_neg hr] at hp
        refine ih (i + 1) ds (by omega) ?_ p hp
        intro q hq
        rw [List.take_succ, List.mem_append] at hq
        rcases hq with hq | hq
        · exact hpre q hq
        · have hgi : ds[i]? = some (ds.get ⟨i, hi⟩) := by
            rw [List.getElem?_eq_getElem hi]
            rfl
          rw [hgi] at hq
          simp only [Option.toList_some, List.mem_singleton] at hq
          subst hq
          simpa using hr
    · rw [dif_neg hi] at hp
      exact hpre p (by rw [List.take_of_length_le (by omega)]; exact hp)

/-- Every posting surviving the swap-and-pop cleanup is live. -/
theorem evictRemoved_all_live (ds : List (DocumentPointer I)) :
    ∀ p ∈ evictRemoved ds, p.details.removed = false :=
  evictLoop_all_live ds.length 0 ds (by omega) (by simp)

/-- `_vacuumIndex(node)`: evict removed postings with the swap-and-pop loop,
set the return bit (`ret = 1`) when postings survive, recurse into every
child, OR the children's bits into the return bit (`ret |= r`), and splice
out (`c.splice(i, 1)`) every child whose subtree reported no postings. -/
def vacuumNode3 : Trie3 I → Bool × Trie3 I
  | .node k ds cs =>
    let d2 := evictRemoved ds
    let rc := cs.attach.map (fun ch => vacuumNode3 ch.1)
    (!d2.isEmpty || rc.any (fun r => r.1),
      .node k d2 ((rc.filter (fun r => r.1)).map (fun r => r.2)))
termination_by t => sizeOf t
decreasing_by exact Trie3.sizeOf_mem_c ch.2

theorem vacuumNode3_node (k : Nat) (ds : List (DocumentPointer I)) (cs : List (Trie3 I)) :
    vacuumNode3 (.node k ds cs)
      = (!(evictRemoved ds).isEmpty || (cs.map (fun ch => vacuumNode3 ch)).any (fun r => r.1),
          .node k (evictRemoved ds)
            (((cs.map (fun ch => vacuumNode3 ch)).filter (fun r => r.1)).map (fun r => r.2))) := by
  rw [vacuumNode3]
  simp

/-- No posting reachable in the subtree references a removed document. -/
def noRemoved3 : Trie3 I → Prop
  | .node _ ds cs => (∀ p ∈ ds, p.details.removed = false) ∧ ∀ ch ∈ cs.attach, noRemoved3 ch.1
termination_by t => sizeOf t
decreasing_by exact Trie3.sizeOf_mem_c ch.2

theorem noRemoved3_node (k : Nat) (ds : List (DocumentPointer I)) (cs : List (Trie3 I)) :
    noRemoved3 (.node k ds cs)
      ↔ (∀ p ∈ ds, p.details.removed = false) ∧ ∀ ch ∈ cs, noRemoved3 ch := by
  rw [noRemoved3]
  simp

/-- The subtree holds at least one posting somewhere. -/
def hasPosting3 : Trie3 I → Prop
  | .node _ ds cs => ds ≠ [] ∨ ∃ ch ∈ cs.attach, hasPosting3 ch.1
termination_by t => sizeOf t
decreasing_by exact Trie3.sizeOf_mem_c ch.2

theorem hasPosting3_node (k : Nat) (ds : List (DocumentPointer I)) (cs : List (Trie3 I)) :
    hasPosting3 (.node k ds cs) ↔ ds ≠ [] ∨ ∃ ch ∈ cs, hasPosting3 ch := by
  rw [hasPosting3]
  simp

/-- Every child kept anywhere in the subtree roots a subtree that still holds
a posting: subtrees with zero postings have been pruned. -/
def prunedOk3 : Trie3 I → Prop
  | .node _ _ cs => ∀ ch ∈ cs.attach, hasPosting3 ch.1 ∧ prunedOk3 ch.1
termination_by t => sizeOf t
decreasing_by exact Trie3.sizeOf_mem_c ch.2

theorem prunedOk3_node (k : Nat) (ds : List (DocumentPointer I)) (cs : List (Trie3 I)) :
    prunedOk3 (.node k ds cs) ↔ ∀ ch ∈ cs, hasPosting3 ch ∧ prunedOk3 ch := by
  rw [prunedOk3]
  simp

/-- `_vacuumIndex` postcondition, by structural induction: the resulting
subtree holds no removed posting, every kept descendant subtree holds a
posting, and the returned bit reports exactly whether the resulting subtree
holds a posting. -/
theorem vacuumNode3_spec (t : Trie3 I) :
    noRemoved3 (vacuumNode3 t).2 ∧ prunedOk3 (vacuumNode3 t).2 ∧
      ((vacuumNode3 t).1 = true ↔ hasPosting3 (vacuumNode3 t).2) := by
  induction t using Trie3.inductionOn3 with
  | _ k ds cs ih =>
  rw [vacuumNode3_node]
  simp only [noRemoved3_node, prunedOk3_node, hasPosting3_node]
  refine ⟨⟨fun p hp => evictRemoved_all_live ds p hp, ?_⟩, ?_, ?_⟩
  · intro ch2 hch2
    rw [List.mem_map] at hch2
    obtain ⟨r, hr, rfl⟩ := hch2
    rw [List.mem_filter] at hr
    obtain ⟨hrm, _⟩ := hr
    rw [List.mem_map] at hrm
    obtain ⟨ch, hch, rfl⟩ := hrm
    exact (ih ch hch).1
  · intro ch2 hch2
    rw [List.mem_map] at hch2
    obtain ⟨r, hr, rfl⟩ := hch2
    rw [List.mem_filter] at hr
    obtain ⟨hrm, hbit⟩ := hr
    rw [List.mem_map] at hrm
    obtain ⟨ch, hch, rfl⟩ := hrm
    exact ⟨(ih ch hch).2.2.mp hbit, (ih ch hch).2.1⟩
  · constructor
    · intro hbit
      rw [Bool.or_eq_true] at hbit
      rcases hbit with hd | hany
      · left
        intro hemp
        rw [hemp] at hd
        simp at hd
      · right
        rw [List.any_eq_true] at hany
        obtain ⟨r, hr, hr1⟩ := hany
        rw [List.mem_map] at hr
        obtain ⟨ch, hch, rfl⟩ := hr
        refine ⟨(vacuumNode3 ch).2, ?_, (ih ch hch).2.2.mp hr1⟩
        rw [List.mem_map]
        exact ⟨vacuumNode3 ch, List.mem_filter.mpr ⟨List.mem_map.mpr ⟨ch, hch, rfl⟩, hr1⟩, rfl⟩
    · intro hpost
      rw [Bool.or_eq_true]
      rcases hpost with hd | ⟨ch2, hch2, _⟩
      · left
        rw [Bool.not_eq_true', List.isEmpty_eq_false]
        exact hd
      · right
        rw [List.mem_map] at hch2
        obtain ⟨r, hr, rfl⟩ := hch2
        rw [List.mem_filter] at hr
        rw [List.any_eq_true]
        exact ⟨r, hr.1, hr.2⟩

/-- The slice of `part_003`'s `DocumentIndex` record that `indexVacuum`
touches: the trie root and the removed-documents counter. -/
structure DocumentIndex3 (I : Type) where
  root : Trie3 I
  removed : Nat

/-- `indexVacuum(index)`: run `_vacuumIndex` on the root, discard the
returned bit — so the root node itself is kept even when its whole subtree
is empty — and reset the removed counter to 0. -/
def indexVacuum3 (idx : DocumentIndex3 I) : DocumentIndex3 I :=
  { root := (vacuumNode3 idx.root).2, removed := 0 }

/-- C1.  After `vacuum()` returns — started from any index state, so in
particular from every state reachable by insertions and removals — no posting
reachable from the trie root references a document whose `removed` flag is
set, and the trie contains no subtree with zero postings: every kept child,
at every depth, roots a subtree that still holds a posting (children whose
cleaned subtree reported no postings were spliced out of their parent's
children array), while the root node itself is kept unconditionally, its
returned liveness bit being discarded by `indexVacuum`. -/
theorem vacuum_removes_and_prunes (idx : DocumentIndex3 I) :
    noRemoved3 (indexVacuum3 idx).root ∧ prunedOk3 (indexVacuum3 idx).root :=
  ⟨(vacuumNode3_spec idx.root).1, (vacuumNode3_spec idx.root).2.1⟩

/-! ## Term expansion of the Map-children inverted index (`src/inverted_index.ts`) -/

/-- Trie node of the `Map`-children `InvertedIndex` variant
(`src/inverted_index.ts`): a postings array and a `Map` from char code to
child node, modelled as an insertion-ordered association list.  `null`
posting arrays and child maps are the empty list (`_expandTerm` and `get`
observe only emptiness and lookups). -/
inductive TrieM (I : Type) : Type where
  | node (postings : List (DocumentPointer I)) (children : List (Nat × TrieM I))

namespace TrieM

/-- The postings array of a node. -/
def postings : TrieM I → List (DocumentPointer I)
  | .node ps _ => ps

/-- The children map of a node. -/
def children : TrieM I → List (Nat × TrieM I)
  | .node _ cs => cs

@[simp] theorem postingsM_node (ps : List (DocumentPointer I)) (cs : List (Nat × TrieM I)) :
    postings (.node ps cs) = ps := rfl

@[simp] theorem childrenM_node (ps : List (DocumentPointer I)) (cs : List (Nat × TrieM I)) :
    children (.node ps cs) = cs := rfl

/-- Size measure used for recursion/induction over the nested inductive. -/
theorem sizeOf_mem_childrenM {p : Nat × TrieM I} {ps : List (DocumentPointer I)}
    {cs : List (Nat × TrieM I)} (h : p ∈ cs) : sizeOf p.2 < sizeOf (TrieM.node ps cs) := by
  have h1 : sizeOf p < sizeOf cs := List.sizeOf_lt_of_mem h
  have h2 : sizeOf p.2 < sizeOf p := by
    cases p with
    | mk a b => simp only [Prod.mk.sizeOf_spec]; omega
  cases cs with
  | nil => cases h
  | cons a l => simp only [TrieM.node.sizeOf_spec]; omega

/-- Structural induction over `TrieM` handing the hypothesis to every entry
of the children map. -/
theorem inductionOnM {P : TrieM I → Prop}
    (h : ∀ ps cs, (∀ p ∈ cs, P p.2) → P (TrieM.node ps cs)) : ∀ t, P t
  | .node ps cs => h ps cs (fun p hp => inductionOnM h p.2)
termination_by t => sizeOf t
decreasing_by exact sizeOf_mem_childrenM hp

end TrieM

/-- `Map.get(key)` on the association-list model of a JS `Map`: the first
entry with a matching key (keys are unique in every map the source builds,
making the entry unique). -/
def mapGet {α : Type _} (m : List (Nat × α)) (k : Nat) : Option α :=
  (m.find? (fun e => e.1 = k)).map (fun e => e.2)

/-- `InvertedIndex.get(term)`: descend from the root by one `Map` lookup per
code unit of the term; the `null`/`undefined` early returns are `none`. -/
def getM : TrieM I → List Nat → Option (TrieM I)
  | nd, [] => some nd
  | nd, cu :: rest =>
    match mapGet nd.children cu with
    | none => none
    | some ch => getM ch rest

@[simp] theorem getM_nil (t : TrieM I) : getM t [] = some t := rfl

theorem getM_cons (t : TrieM I) (cu : Nat) (rest : List Nat) :
    getM t (cu :: rest)
      = match mapGet t.children cu with
        | none => none
        | some ch => getM ch rest := rfl

/-- `_expandTerm(node, results, term)`: push the current term onto the
results when the node's posting array is non-`null` and non-empty, then
recurse into every child in `Map` insertion order (`children.forEach`),
extending the term by the child's char code; the `results.push` order is list
concatenation. -/
def expandMGo : TrieM I → List Nat → List (List Nat)
  | .node ps cs, term =>
    (if ps.isEmpty then [] else [term]) ++
      cs.attach.flatMap (fun p => expandMGo p.1.2 (term ++ [p.1.1]))
termination_by t _ => sizeOf t
decreasing_by exact TrieM.sizeOf_mem_childrenM p.2

/-- Eliminate `attach` under `flatMap` when the function only reads the
element. -/
theorem flatMap_attach_eq {α β : Type _} (l : List α) (f : α → List β) :
    l.attach.flatMap (fun p => f p.1) = l.flatMap f := by
  rw [← List.flatMap_map (fun (p : {x // x ∈ l}) => p.1) f l.attach,
    List.attach_map_subtype_val]

theorem expandMGo_node (ps : List (DocumentPointer I)) (cs : List (Nat × TrieM I))
    (term : List Nat) :
    expandMGo (.node ps cs) term
      = (if ps.isEmpty then [] else [term]) ++
          cs.flatMap (fun p => expandMGo p.2 (term ++ [p.1])) := by
  rw [expandMGo]
  congr 1
  exact flatMap_attach_eq cs (fun q => expandMGo q.2 (term ++ [q.1]))

/-- `invertedIndexExpandTerm(index, term)`: find the term's node and collect
every stored extension below it (including the term itself when its node
holds postings). -/
def invertedIndexExpandTerm (t : TrieM I) (term : List Nat) : List (List Nat) :=
  match getM t term with
  | none => []
  | some nd => expandMGo nd term

/-- A term is stored in the trie exactly when its node exists and holds a
non-empty posting array — the condition under which `_expandTerm` emits it. -/
def storedM (t : TrieM I) (s : List Nat) : Bool :=
  match getM t s with
  | none => false
  | some nd => !nd.postings.isEmpty

theorem storedM_eq (t : TrieM I) (s : List Nat) :
    storedM t s
      = match getM t s with
        | none => false
        | some nd => !nd.postings.isEmpty := rfl

/-- Well-formed children maps: the keys stored at every node are pairwise
distinct.  JS `Map` keys are unique, so every trie the source builds is
well-formed. -/
def wfM : TrieM I → Prop
  | .node _ cs => (cs.map Prod.fst).Nodup ∧ ∀ p ∈ cs.attach, wfM p.1.2
termination_by t => sizeOf t
decreasing_by exact TrieM.sizeOf_mem_childrenM p.2

theorem wfM_node (ps : List (DocumentPointer I)) (cs : List (Nat × TrieM I)) :
    wfM (.node ps cs) ↔ (cs.map Prod.fst).Nodup ∧ ∀ p ∈ cs, wfM p.2 := by
  rw [wfM]
  simp

/-- With pairwise-distinct keys, a map entry is found by its key. -/
theorem mapGet_of_nodup_mem {α : Type _} {m : List (Nat × α)} {k : Nat} {v : α}
    (hnd : (m.map Prod.fst).Nodup) (h : (k, v) ∈ m) : mapGet m k = some v := by
  induction m with
  | nil => cases h
  | cons e rest ih =>
    rw [List.map_cons, List.nodup_cons] at hnd
    rcases List.mem_cons.mp h with he | h2
    · unfold mapGet
      rw [List.find?_cons_of_pos _ (by rw [← he]; simp)]
      rw [← he]
      rfl
    · unfold mapGet
      rw [List.find?_cons_of_neg]
      · exact ih hnd.2 h2
      · simp only [decide_eq_true_eq]
        intro hek
        exact hnd.1 (hek ▸ List.mem_map.mpr ⟨(k, v), h2, rfl⟩)

/-- A successful map lookup returns an entry of the map. -/
theorem mapGet_mem {α : Type _} {m : List (Nat × α)} {k : Nat} {v : α}
    (h : mapGet m k = some v) : (k, v) ∈ m := by
  unfold mapGet at h
  cases hf : m.find? (fun e => e.1 = k) with
  | none => rw [hf] at h; cases h
  | some e =>
    rw [hf, Option.map_some'] at h
    have he := List.find?_some hf
    have hm := List.mem_of_find?_eq_some hf
    cases e with
    | mk a b =>
      simp only [decide_eq_true_eq] at he
      cases h
      rw [← he]
      exact hm

/-- Descending a step through a node with a known child entry. -/
theorem storedM_cons_of_mapGet {cs : List (Nat × TrieM I)} {cu : Nat} {ch : TrieM I}
    (h : mapGet cs cu = some ch) (ps : List (DocumentPointer I)) (rest : List Nat) :
    storedM (.node ps cs) (cu :: rest) = storedM ch rest := by
  rw [storedM_eq, storedM_eq, getM_cons]
  rw [TrieM.childrenM_node, h]

/-- Well-formedness is preserved along `get` descents. -/
theorem wfM_getM {t : TrieM I} {e : List Nat} {nd : TrieM I}
    (hwf : wfM t) (h : getM t e = some nd) : wfM nd := by
  induction e generalizing t with
  | nil =>
    rw [getM_nil, Option.some_inj] at h
    exact h ▸ hwf
  | cons cu rest ih =>
    rw [getM_cons] at h
    cases hg : mapGet t.children cu with
    | none => rw [hg] at h; cases h
    | some ch =>
      rw [hg] at h
      refine ih ?_ h
      cases t with
      | node ps cs =>
        rw [wfM_node] at hwf
        exact hwf.2 (cu, ch) (mapGet_mem (by rw [TrieM.childrenM_node] at hg; exact hg))

/-- `get` distributes over appended terms. -/
theorem getM_append (a b : List Nat) : ∀ (t : TrieM I),
    getM t (a ++ b) = (getM t a).bind (fun nd => getM nd b) := by
  induction a with
  | nil => intro t; rw [List.nil_append, getM_nil, Option.some_bind]
  | cons cu rest ih =>
    intro t
    rw [List.cons_append, getM_cons, getM_cons]
    cases hg : mapGet t.children cu with
    | none => rw [Option.none_bind]
    | some ch => exact ih ch

/-- Membership in the recursive expansion below a node: the emitted terms are
exactly the current term extended by the paths to stored descendants. -/
theorem mem_expandMGo (t : TrieM I) : ∀ (pre s : List Nat), wfM t →
    (s ∈ expandMGo t pre ↔ ∃ r, s = pre ++ r ∧ storedM t r = true) := by
  induction t using TrieM.inductionOnM with
  | _ ps cs ih =>
  intro pre s hwf
  rw [wfM_node] at hwf
  rw [expandMGo_node, List.mem_append]
  constructor
  · intro hs
    rcases hs with h1 | h2
    · by_cases hps : ps.isEmpty
      · rw [if_pos hps] at h1; cases h1
      · rw [if_neg hps] at h1
        rcases List.mem_singleton.mp h1 with rfl
        refine ⟨[], by rw [List.append_nil], ?_⟩
        show (!(TrieM.node ps cs).postings.isEmpty) = true
        rw [TrieM.postingsM_node]
        cases hb : ps.isEmpty with
        | true => exact absurd hb hps
        | false => rfl
    · rw [List.mem_flatMap] at h2
      obtain ⟨p, hp, hs⟩ := h2
      obtain ⟨r, hsr, hst⟩ := (ih p hp (pre ++ [p.1]) s (hwf.2 p hp)).mp hs
      refine ⟨p.1 :: r, by rw [hsr, List.append_assoc, List.singleton_append], ?_⟩
      rw [storedM_cons_of_mapGet (mapGet_of_nodup_mem hwf.1 hp) ps r]
      exact hst
  · rintro ⟨r, rfl, hst⟩
    cases r with
    | nil =>
      left
      have hst2 : (!(TrieM.node ps cs).postings.isEmpty) = true := hst
      rw [TrieM.postingsM_node] at hst2
      have hemp : ps.isEmpty = false := by
        cases hb : ps.isEmpty with
        | true => rw [hb] at hst2; exact absurd hst2 (by decide)
        | false => rfl
      rw [List.append_nil, if_neg (by rw [hemp]; exact Bool.false_ne_true),
        List.mem_singleton]
    | cons cu r2 =>
      right
      rw [storedM_eq, getM_cons, TrieM.childrenM_node] at hst
      cases hg : mapGet cs cu with
      | none => rw [hg] at hst; cases hst
      | some ch =>
        rw [hg] at hst
        have hchm : (cu, ch) ∈ cs := mapGet_mem hg
        rw [List.mem_flatMap]
        refine ⟨(cu, ch), hchm, ?_⟩
        refine (ih (cu, ch) hchm (pre ++ [cu]) (pre ++ cu :: r2) (hwf.2 (cu, ch) hchm)).mpr ?_
        refine ⟨r2, ?_, ?_⟩
        · rw [List.append_assoc, List.singleton_append]
        · rw [storedM_eq]
          exact hst

/-- C7.  For every well-formed trie (children-map keys unique at every node —
true of every trie the source builds), `expandTerm(q)` returns exactly the
stored terms `s` having `q` as a prefix: `s` is returned iff `q <+: s` and
the node of `s` exists with a non-empty posting array; in particular `q`
itself is returned exactly when `q` is stored, and terms whose node holds no
postings are not returned. -/
theorem expand_term_exactly_prefixes (t : TrieM I) (q s : List Nat) (hwf : wfM t) :
    s ∈ invertedIndexExpandTerm t q ↔ q <+: s ∧ storedM t s = true := by
  unfold invertedIndexExpandTerm
  cases hg : getM t q with
  | none =>
    constructor
    · intro h; cases h
    · rintro ⟨⟨r, rfl⟩, hst⟩
      rw [storedM_eq, getM_append, hg, Option.none_bind] at hst
      cases hst
  | some nd =>
    rw [mem_expandMGo nd q s (wfM_getM hwf hg)]
    constructor
    · rintro ⟨r, rfl, hst⟩
      refine ⟨⟨r, rfl⟩, ?_⟩
      rw [storedM_eq, getM_append, hg, Option.some_bind]
      rw [storedM_eq] at hst
      exact hst
    · rintro ⟨⟨r, rfl⟩, hst⟩
      refine ⟨r, rfl, ?_⟩
      rw [storedM_eq, getM_append, hg, Option.some_bind] at hst
      rw [storedM_eq]
      exact hst

/-- A posting fixture for the expansion witness. -/
def wPostM : DocumentPointer Nat :=
  { details := { docId := 9, removed := false, fieldLengths := [1] }, termFrequency := [1] }

/-- A concrete Map-children trie storing the terms `[1]` and `[1, 2, 3]`
(the node of `[1, 2]` exists but holds no postings). -/
def wTrieM : TrieM Nat :=
  .node [] [(1, .node [wPostM] [(2, .node [] [(3, .node [wPostM] [])])])]

/-- Witness: on the concrete trie, the stored extension `[1, 2, 3]` of the
query `[1]` is returned by `expandTerm`. -/
theorem expand_term_exactly_prefixes_witness :
    wfM wTrieM ∧ [1, 2, 3] ∈ invertedIndexExpandTerm wTrieM [1] := by
  have hwf : wfM wTrieM := by
    rw [wTrieM]
    rw [wfM_node]
    refine ⟨by decide, ?_⟩
    intro p hp
    rw [List.mem_singleton] at hp
    rw [hp, wfM_node]
    refine ⟨by decide, ?_⟩
    intro p2 hp2
    rw [List.mem_singleton] at hp2
    rw [hp2, wfM_node]
    refine ⟨by decide, ?_⟩
    intro p3 hp3
    rw [List.mem_singleton] at hp3
    rw [hp3, wfM_node]
    exact ⟨by decide, by intro p4 hp4; cases hp4⟩
  refine ⟨hwf, ?_⟩
  refine (expand_term_exactly_prefixes wTrieM [1] [1, 2, 3] hwf).mpr ?_
  exact ⟨⟨[2, 3], rfl⟩, by decide⟩

end Ndx
